import Mathlib

/-!
Verification of `extract_html.py` (GoogleDocWYSIWYG): a shallow embedding of
the Google-Docs-export pipeline — archive reading, style resolution, DOM
rewrite passes and page splitting — together with proofs about its behaviour.

The DOM is modelled as a rose tree (`Node`): `text` nodes carry a string,
`elem` nodes carry a tag name, an ordered attribute dictionary and an ordered
child list, exactly the information the Python code accesses via
BeautifulSoup (`tag.name`, `tag.attrs`, `tag.contents`). In-place mutation is
modelled functionally: each pass maps the tree to the rewritten tree.
Python operations that can raise (style lookup on a missing selector) return
`Option`, with `none` standing for the raised exception.
-/

namespace GDoc

/-- Bytes of an archive entry (`zf.read(name)` returns a byte string). -/
abbrev Bytes := List Nat

/-- An archive is the ordered list of its entries: `zf.namelist()` gives the
names in order, `zf.read` gives the bytes stored under a name. -/
abbrev Archive := List (String × Bytes)

/-- Python `str.upper()`, character-wise (ASCII file names). -/
def pyUpper (s : String) : String := String.mk (s.data.map Char.toUpper)

/-- Python `str.endswith(t)`. -/
def pyEndsWith (s t : String) : Bool := t.data.isSuffixOf s.data

/-- Python `zf.read(name)`: `zipfile` resolves a name through its
`NameToInfo` dictionary, which is built in entry order so that a later entry
overwrites an earlier one of the same name — the bytes of the last entry
bearing `name` are returned. -/
def zfRead (zf : Archive) (name : String) : Bytes :=
  (zf.foldl (fun acc e => if e.1 == name then some e.2 else acc) none).getD []

/-- Embedding of `extract_html` (lines 6–18): scan `zf.namelist()`, keeping
`html_file_name = f` for every name whose upper-casing ends in `".HTML"`
(the loop has no `break`, so the last match survives); read that name, or
return `None` when no name matched. -/
def extract_html (file_name : Archive) : Option Bytes :=
  let files := file_name
  let html_file_name : Option String :=
    files.foldl (fun acc f => if pyEndsWith (pyUpper f.1) ".HTML" then some f.1 else acc) none
  match html_file_name with
  | some nm => some (zfRead file_name nm)
  | none => none

/-- Embedding of `get_html_soup` (lines 36–40): the result of `extract_html`
is handed to the DOM parser (`BeautifulSoup(html_doc)`) unconditionally —
there is no check for the absent value, so the parser receives `none` when
the archive has no HTML entry. The parser is an external collaborator,
abstracted as an arbitrary function on the possibly-absent bytes. -/
def get_html_soup {α : Type} (parse : Option Bytes → α) (file_name : Archive) : α :=
  parse (extract_html file_name)

/-! ## Stylesheet model (tinycss) -/

/-- One CSS declaration: a property name and its value tokens
(`d.name`, `[x.as_css() for x in d.value]`). -/
structure Declaration where
  name : String
  value : List String
deriving DecidableEq

/-- One CSS rule: the selector rendered by `r.selector.as_css()` and the
ordered declarations. -/
structure Rule where
  selector : String
  declarations : List Declaration
deriving DecidableEq

/-- A parsed stylesheet is its ordered rule list (`sheet.rules`). -/
abbrev Stylesheet := List Rule

/-- Embedding of `get_inline_style` (lines 61–70): linear scan keeping the
last rule whose selector equals `tag`; then format every declaration of that
rule as `name:value` (value tokens joined by spaces) and join the
declarations with `";"`. When no rule matches, `rule` stays `None` and the
Python code raises `AttributeError` on `rule.declarations`; that failure is
`none` here. -/
def get_inline_style (tinycss_sheet : Stylesheet) (tag : String) : Option String :=
  let rule : Option Rule :=
    tinycss_sheet.foldl (fun acc r => if r.selector == tag then some r else acc) none
  match rule with
  | some r =>
      some (String.intercalate ";"
        (r.declarations.map fun d => d.name ++ ":" ++ String.intercalate " " d.value))
  | none => none

/-! ## DOM model -/

/-- An attribute value: BeautifulSoup stores multi-valued attributes such as
`class` as a list of tokens and everything else as a plain string. -/
inductive AttrValue where
  | str : String → AttrValue
  | strs : List String → AttrValue
deriving DecidableEq

/-- The attribute dictionary of an element, in insertion order. -/
abbrev Attrs := List (String × AttrValue)

/-- A DOM node: a navigable string or an element with tag name, attributes
and ordered children. -/
inductive Node where
  | text : String → Node
  | elem : String → Attrs → List Node → Node

mutual
def Node.deq : (a b : Node) → Decidable (a = b)
  | .text s, .text t =>
    match decEq s t with
    | isTrue h => isTrue (by rw [h])
    | isFalse h => isFalse (by simp [h])
  | .text _, .elem _ _ _ => isFalse (by simp)
  | .elem _ _ _, .text _ => isFalse (by simp)
  | .elem n a ks, .elem m b ls =>
    match decEq n m, decEq a b, Node.deqList ks ls with
    | isTrue h1, isTrue h2, isTrue h3 => isTrue (by rw [h1, h2, h3])
    | isFalse h1, _, _ => isFalse (by simp [h1])
    | _, isFalse h2, _ => isFalse (by simp [h2])
    | _, _, isFalse h3 => isFalse (by simp [h3])
def Node.deqList : (a b : List Node) → Decidable (a = b)
  | [], [] => isTrue rfl
  | [], _ :: _ => isFalse (by simp)
  | _ :: _, [] => isFalse (by simp)
  | x :: xs, y :: ys =>
    match Node.deq x y, Node.deqList xs ys with
    | isTrue h1, isTrue h2 => isTrue (by rw [h1, h2])
    | isFalse h1, _ => isFalse (by simp [h1])
    | _, isFalse h2 => isFalse (by simp [h2])
end

instance : DecidableEq Node := Node.deq

/-- Children of a node (`tag.contents`); a navigable string has none. -/
def Node.kids : Node → List Node
  | .text _ => []
  | .elem _ _ ks => ks

/-- Attribute lookup, `tag.get(k)` / `tag.attrs.get(k)`. -/
def getAttr (a : Attrs) (k : String) : Option AttrValue :=
  (a.find? fun e => e.1 == k).map Prod.snd

/-- Embedding of `strip_attr` (lines 123–130): rebuild the attribute
dictionary from every key other than `attr_name`, preserving order. -/
def strip_attr (attrs : Attrs) (attr_name : String) : Attrs :=
  attrs.filter fun e => !(e.1 == attr_name)

/-- Python `tag.attrs[k] = v`: update the entry in place when the key is
present, append it otherwise. -/
def setAttr (attrs : Attrs) (k : String) (v : AttrValue) : Attrs :=
  if attrs.any (fun e => e.1 == k) then
    attrs.map fun e => if e.1 == k then (k, v) else e
  else attrs ++ [(k, v)]

/-- Python truthiness of `tag.get("class")`: `None`, `""` and `[]` are
falsy. -/
def truthy : Option AttrValue → Bool
  | none => false
  | some (.str s) => !(s == "")
  | some (.strs l) => !l.isEmpty

/-- Iterating a class attribute value (`for c in class_`): a token list
yields its tokens; iterating a plain string yields its characters. -/
def classTokens : AttrValue → List String
  | .str s => s.data.map fun c => String.mk [c]
  | .strs l => l

/-! ## Attribute rewriting passes

`soup.findAll(tag)` collects every element of the subtree (the root itself
excluded) whose name is `tag`, and the passes then mutate each collected
element's attributes in place. Each mutation touches only that element's own
attribute dictionary, so the snapshot-then-mutate loop is the same as one
recursive rewrite of every matching element. -/

mutual
/-- Apply an attribute rewrite `f` (receiving tag name and attributes) to
every element of a tree, including its root. -/
def mapAttrsN (f : String → Attrs → Attrs) : Node → Node
  | .text s => .text s
  | .elem n a kids => .elem n (f n a) (mapAttrsF f kids)
/-- Forest version of `mapAttrsN`. -/
def mapAttrsF (f : String → Attrs → Attrs) : List Node → List Node
  | [] => []
  | c :: rest => mapAttrsN f c :: mapAttrsF f rest
end

/-- Embedding of `strip_soup_tags_attr` (lines 132–136): remove attribute
`attr_name` from every descendant element named `tag`. -/
def strip_soup_tags_attr (soup : Node) (tag : String) (attr_name : String) : Node :=
  match soup with
  | .text s => .text s
  | .elem n a kids =>
      .elem n a (mapAttrsF (fun m attrs => if m == tag then strip_attr attrs attr_name else attrs) kids)

/-- The fixed list of structural tags of `strip_class_from_basics`
(line 157). -/
def basics : List String :=
  ["title", "subtitle", "h1", "h2", "h3", "h4", "h5", "h6", "a", "p"]

/-- Embedding of `strip_class_from_basics` (lines 154–161): for each tag in
`basics` in order, remove `class` from every matching descendant (the body
of the loop is exactly `strip_soup_tags_attr soup b "class"`). -/
def strip_class_from_basics (soup : Node) : Node :=
  basics.foldl (fun s b => strip_soup_tags_attr s b "class") soup

/-- Specification form of the class-stripping pass: one recursive rewrite of
the whole subtree that removes `class` from every descendant element whose
tag is in `bs` and leaves every other element untouched. -/
def stripSpec (bs : List String) (soup : Node) : Node :=
  match soup with
  | .text s => .text s
  | .elem n a kids =>
    .elem n a (mapAttrsF
      (fun m attrs => if bs.contains m then strip_attr attrs "class" else attrs) kids)

/-- Embedding of `replace_tag_with_inline_css` (lines 138–152): when
`tag.get("class")` is truthy, drop the `style` and `class` attributes,
resolve each class token against the stylesheet (a missing selector raises,
modelled by `none`), and set `style` to the `";"`-join of the resolved
strings. An element without a truthy class is left untouched. -/
def replace_tag_with_inline_css (styles : Stylesheet) (tag : Node) : Option Node :=
  match tag with
  | .text s => some (.text s)
  | .elem n a kids =>
    let class_ := getAttr a "class"
    if truthy class_ then
      match class_ with
      | none => none
      | some cv =>
        let a1 := strip_attr (strip_attr a "style") "class"
        match (classTokens cv).mapM (fun c => get_inline_style styles ("." ++ c)) with
        | some new_styles =>
            some (.elem n (setAttr a1 "style" (.str (String.intercalate ";" new_styles))) kids)
        | none => none
    else some (.elem n a kids)

mutual
/-- Apply `replace_tag_with_inline_css` to one node if it is a `span`, and
recurse into its children. -/
def inlineNode (styles : Stylesheet) : Node → Option Node
  | .text s => some (.text s)
  | .elem n a kids =>
    match inlineForest styles kids with
    | some kids' =>
        if n == "span" then replace_tag_with_inline_css styles (.elem n a kids')
        else some (.elem n a kids')
    | none => none
/-- Forest version of `inlineNode`. -/
def inlineForest (styles : Stylesheet) : List Node → Option (List Node)
  | [] => some []
  | c :: rest =>
    match inlineNode styles c, inlineForest styles rest with
    | some c', some rest' => some (c' :: rest')
    | _, _ => none
end

/-- Embedding of `change_class_to_inlines` (lines 163–169): the tag list
`use_inline` is just `["span"]`, so the pass applies
`replace_tag_with_inline_css` to every descendant `span` of the soup. -/
def change_class_to_inlines (soup : Node) (styles : Stylesheet) : Option Node :=
  match soup with
  | .text s => some (.text s)
  | .elem n a kids =>
    match inlineForest styles kids with
    | some kids' => some (.elem n a kids')
    | none => none

/-! ## Merging consecutive tags (`combine_tags`) -/

/-- The node appended at a merge point: `BeautifulSoup("<br/>")` is a soup
document whose sole child is a `<br>` element; the raw document object is
appended into the contents list. -/
def br_soup : Node := .elem "[document]" [] [.elem "br" [] []]

/-- Condition of the cleanup loop (line 106): `tag.findChildren()` with no
arguments collects descendant Tags (navigable strings are not Tags) by
walking bs4's parse-order chain of `next_element` links. On a
*chain-consistent* element — one whose subtree the merge branch has not
touched with its raw `contents` writes — the walk visits exactly the
contents subtree, and a Tag descendant exists iff an element child does
(the minimal-depth Tag descendant's parent is the element itself), so the
emptiness test reduces to this check of the children. After a merge the
chain and the contents tree disagree and the reduction no longer holds;
the heap model below covers that regime. -/
def hasElemChild (kids : List Node) : Bool :=
  kids.any fun c => match c with | .elem _ _ _ => true | .text _ => false

mutual
/-- One step of the cleanup loop of `combine_tags` (lines 103–107) read on
a *chain-consistent* tree, i.e. when the merge branch never fired:
`parent.findAll(tag)` is snapshot in document order and traversed
*reversed*, extracting every collected element whose `findChildren()` is
empty at its turn. Extraction maintains the parse-order chain, reversed
document order processes all descendants of a node (and all later
siblings) before the node itself, and on a chain-consistent tree
`findChildren()` is empty exactly when no element child is left
(`hasElemChild`), so the loop equals this bottom-up sweep: clean the
children first, then drop the node when its name matches and no element
child remains. Once a merge *has* fired, the raw `contents` writes
desynchronize the chain from the contents tree and this sweep is no longer
the loop's behaviour — claim C8 is therefore stated under a no-merge
hypothesis and claim C10 runs the chain-faithful heap model instead. -/
def cleanupN (tag : String) : Node → Option Node
  | .text s => some (.text s)
  | .elem n a kids =>
    let kids' := cleanupF tag kids
    if n == tag && !hasElemChild kids' then none else some (.elem n a kids')
/-- Forest version of `cleanupN`. -/
def cleanupF (tag : String) : List Node → List Node
  | [] => []
  | c :: rest =>
    match cleanupN tag c with
    | some c' => c' :: cleanupF tag rest
    | none => cleanupF tag rest
end

mutual
/-- Embedding of `combine_tags` (lines 78–107): run the merge loop over
`parent.children`, then the cleanup sweep over the whole result. The
cleanup stage is the chain-consistent reading of lines 103–107 (see
`cleanupN`): it coincides with the Python cleanup exactly when the loop
performed no merge, which is how claim C8 uses it. -/
def combine_tags (parent : Node) (tag : String) : Node :=
  match parent with
  | .text s => .text s
  | .elem n a kids => .elem n a (cleanupF tag (mergeGo tag kids [] none []))

/-- The merge loop of `combine_tags` (lines 87–102), with the in-place list
mutation made explicit. The contents list built so far is
`done ++ lc.toList ++ after`: `lc` is the current `last_child` (`None`
initially), and `after` holds the children emitted since `lc` was last
assigned — exactly the `<hr>` children (recursed into, which do not touch
`last_child`) and the merged-and-cleared children. Each branch mirrors one
branch of the Python loop:
* a navigable string or an element that is neither `"hr"` nor `tag`
  reassigns `last_child` (flushing the previous one);
* an `"hr"` child is recursed into and emitted without touching
  `last_child`;
* a `tag` child reassigns `last_child` when the current one is absent or not
  `tag`-named, and otherwise appends `BeautifulSoup("<br/>")` plus the
  child's contents to `last_child.contents` and clears the child (its
  attributes survive `clear()`, its contents are emptied). -/
def mergeGo (tag : String) (cs done : List Node) (lc : Option Node) (after : List Node) :
    List Node :=
  match cs with
  | [] => done ++ lc.toList ++ after
  | c :: rest =>
    match c with
    | .text s => mergeGo tag rest (done ++ lc.toList ++ after) (some (.text s)) []
    | .elem n a kids =>
      if n == "hr" then
        mergeGo tag rest done lc (after ++ [combine_tags (.elem n a kids) tag])
      else if n == tag then
        match lc with
        | some (.elem m la lkids) =>
          if m == tag then
            mergeGo tag rest done (some (.elem m la (lkids ++ br_soup :: kids)))
              (after ++ [.elem n a []])
          else
            mergeGo tag rest (done ++ .elem m la lkids :: after) (some (.elem n a kids)) []
        | some (.text t) =>
            mergeGo tag rest (done ++ .text t :: after) (some (.elem n a kids)) []
        | none =>
            mergeGo tag rest (done ++ after) (some (.elem n a kids)) []
      else
        mergeGo tag rest (done ++ lc.toList ++ after) (some (.elem n a kids)) []
end

mutual
/-- No merge fires during the whole recursive pass on this node: the loop
over its children (entered with `last_child = None`, line 87) never
reaches the merge branch, recursively inside `<hr>` children as well.
While this holds, every mutation of the pass is an `extract()` — which
maintains bs4's parse-order chain — so the contents-tree reading of
`findAll`/`findChildren` (`hasElemChild`, `cleanupN`) is faithful. -/
def noMergeN (tag : String) : Node → Bool
  | .text _ => true
  | .elem _ _ kids => noMergeGo tag none kids

/-- Scan of the merge loop (lines 88–102) that mirrors its `last_child`
bookkeeping exactly and fails precisely where the loop would merge: a
`tag`-named child reached while `last_child` is a `tag`-named element. -/
def noMergeGo (tag : String) (lc : Option Node) : List Node → Bool
  | [] => true
  | .text s :: rest => noMergeGo tag (some (.text s)) rest
  | .elem n a kids :: rest =>
    if n == "hr" then noMergeN tag (.elem n a kids) && noMergeGo tag lc rest
    else if n == tag then
      (match lc with
       | some (.elem m _ _) => !(m == tag)
       | _ => true) && noMergeGo tag (some (.elem n a kids)) rest
    else noMergeGo tag (some (.elem n a kids)) rest
end

/-- The children list a merge-free pass leaves behind after the loop:
`<hr>` children have been recursed into (line 91) and every other child is
in place — without a merge the loop only reassigns `last_child`. -/
def hrMapF (tag : String) : List Node → List Node
  | [] => []
  | .text s :: rest => .text s :: hrMapF tag rest
  | .elem n a kids :: rest =>
    (if n == "hr" then combine_tags (.elem n a kids) tag else .elem n a kids)
      :: hrMapF tag rest

/-! ## A chain-faithful heap model of bs4 (claim C10)

`findAll`/`findChildren` do not sweep the `contents` tree: bs4 implements
both over `descendants`, which walks the parse-order chain of
`next_element` links. `extract()` maintains that chain, but the merge
branch of `combine_tags` mutates `contents` lists raw (lines 100–101:
`last_child.contents.append(BeautifulSoup("<br/>"))`,
`last_child.contents += child.contents`), and a raw list write never
touches a chain link; after a merge the chain and the contents tree
disagree, merged-in nodes are invisible to the walks, and the cleanup can
extract a merged element although its `contents` hold elements. The model
below makes both structures explicit, following the bs4 sources: cells
addressed by identity carrying `contents`, `parent`, the chain links
(`previous_element`/`next_element`) and the sibling links;
`_last_descendant` as the `contents[-1]` descent; `descendants` as the
chain walk from `contents[0]` up to `_last_descendant().next_element`;
`extract` with its chain splice; `clear` as extraction of a `contents`
snapshot. Recursive walks take fuel one larger than the heap, which a
finite acyclic chain never exhausts. -/

/-- One bs4 `PageElement`: a Tag (`isTag`, with `tagName`, attributes and
`contents`) or a NavigableString (`strVal`), plus the tree, chain and
sibling links every parsed object carries. -/
structure BCell where
  isTag : Bool
  tagName : String
  strVal : String
  battrs : Attrs
  contents : List Nat
  bparent : Option Nat
  prevEl : Option Nat
  nextEl : Option Nat
  prevSib : Option Nat
  nextSib : Option Nat

instance : Inhabited BCell :=
  ⟨⟨false, "", "", [], [], none, none, none, none, none⟩⟩

/-- The object heap: cells addressed by identity. -/
abbrev Heap := List (Nat × BCell)

/-- Read a cell. -/
def hGet (h : Heap) (i : Nat) : BCell :=
  ((h.find? fun e => e.1 == i).map fun e => e.2).getD default

/-- Update a cell in place. -/
def hMod (h : Heap) (i : Nat) (f : BCell → BCell) : Heap :=
  h.map fun e => if e.1 == i then (e.1, f e.2) else e

/-- `_last_descendant`: descend into `contents[-1]` while the current
object is a Tag with contents. -/
def lastDesc (h : Heap) : Nat → Nat → Nat
  | 0, i => i
  | fuel + 1, i =>
    let c := hGet h i
    if c.isTag && !c.contents.isEmpty then lastDesc h fuel (c.contents.getLastD 0)
    else i

/-- The `while current is not stopNode` loop of `descendants`, following
`next_element` links; a `None` current ends the walk. -/
def chainWalk (h : Heap) (stop : Option Nat) : Nat → Option Nat → List Nat
  | 0, _ => []
  | _ + 1, none => []
  | fuel + 1, some i =>
    if stop == some i then [] else i :: chainWalk h stop fuel (hGet h i).nextEl

/-- `descendants`: nothing when `contents` is empty; otherwise the chain
walk from `contents[0]` up to `_last_descendant().next_element`. -/
def hDescendants (h : Heap) (i : Nat) : List Nat :=
  match (hGet h i).contents with
  | [] => []
  | first :: _ =>
    chainWalk h (hGet h (lastDesc h (h.length + 1) i)).nextEl (h.length + 1) (some first)

/-- `findAll(name)`: the Tags of the `descendants` walk whose name
matches. -/
def hFindAll (h : Heap) (i : Nat) (name : String) : List Nat :=
  (hDescendants h i).filter fun j => (hGet h j).isTag && ((hGet h j).tagName == name)

/-- `findChildren()` with no arguments: every Tag of the `descendants`
walk. -/
def hFindChildren (h : Heap) (i : Nat) : List Nat :=
  (hDescendants h i).filter fun j => (hGet h j).isTag

/-- `extract()`: delete the element from its parent's `contents`, splice
the subtree's chain segment out (connect `previous_element` to the element
after `_last_descendant()`), cut the segment's boundary links, fix the
sibling links, and orphan the element. -/
def hExtract (h : Heap) (i : Nat) : Heap :=
  let c := hGet h i
  let h1 := match c.bparent with
    | some p => hMod h p fun x => { x with contents := x.contents.erase i }
    | none => h
  let ld := lastDesc h1 (h1.length + 1) i
  let nxt := (hGet h1 ld).nextEl
  let h2 := match c.prevEl with
    | some pe => hMod h1 pe fun x => { x with nextEl := nxt }
    | none => h1
  let h3 := match nxt with
    | some ne2 => hMod h2 ne2 fun x => { x with prevEl := c.prevEl }
    | none => h2
  let h4 := hMod h3 i fun x => { x with prevEl := none }
  let h5 := hMod h4 ld fun x => { x with nextEl := none }
  let h6 := match c.prevSib with
    | some ps => hMod h5 ps fun x => { x with nextSib := c.nextSib }
    | none => h5
  let h7 := match c.nextSib with
    | some ns => hMod h6 ns fun x => { x with prevSib := c.prevSib }
    | none => h6
  hMod h7 i fun x => { x with bparent := none, prevSib := none, nextSib := none }

/-- `clear()`: extract every element of a snapshot of `contents`. -/
def hClear (h : Heap) (i : Nat) : Heap :=
  (hGet h i).contents.foldl (fun hh j => hExtract hh j) h

/-- `BeautifulSoup("<br/>")`: a fresh two-cell document — the
`[document]` wrapper and its `<br>` child — whose self-contained chain
links the wrapper to the child and ends there. Returns the extended heap,
the next free identity and the wrapper's identity. -/
def allocBr (h : Heap) (cnt : Nat) : Heap × Nat × Nat :=
  (h ++
    [(cnt, ⟨true, "[document]", "", [], [cnt + 1], none, none, some (cnt + 1), none, none⟩),
     (cnt + 1, ⟨true, "br", "", [], [], some cnt, some cnt, none, none, none⟩)],
   cnt + 2, cnt)

/-- The two mutually recursive shapes of the pass over the heap:
`combine_tags` on a parent cell, or its merge loop with the current
`last_child`. -/
inductive HCall where
  | comb (parent : Nat)
  | loop (lc : Option Nat) (cs : List Nat)

/-- `combine_tags` over the heap, fuel-indexed (the runs below use ample
fuel). `.comb parent` runs the loop over the parent's children and then
the cleanup: snapshot `parent.findAll(tag)`, reverse it, and extract each
collected cell whose `findChildren()` is empty at its turn (lines
103–107). `.loop lc cs` mirrors lines 88–102: recurse into `<hr>` children
(`last_child` untouched), reassign `last_child` on every other non-merging
child — a NavigableString has name `None` — and on a merge append the
`BeautifulSoup("<br/>")` document and then the child's contents to
`last_child.contents` raw, writing no chain link, and `clear()` the
child. -/
def hRun (tag : String) : Nat → Heap → Nat → HCall → Heap × Nat
  | 0, h, cnt, _ => (h, cnt)
  | fuel + 1, h, cnt, .comb parent =>
    let r1 := hRun tag fuel h cnt (.loop none (hGet h parent).contents)
    let mc := (hFindAll r1.1 parent tag).reverse
    let h2 := mc.foldl
      (fun hh t => if (hFindChildren hh t).length == 0 then hExtract hh t else hh) r1.1
    (h2, r1.2)
  | fuel + 1, h, cnt, .loop lc cs =>
    match cs with
    | [] => (h, cnt)
    | child :: rest =>
      let c := hGet h child
      let cname : Option String := if c.isTag then some c.tagName else none
      if cname == some "hr" then
        let r1 := hRun tag fuel h cnt (.comb child)
        hRun tag fuel r1.1 r1.2 (.loop lc rest)
      else if cname == some tag then
        match lc with
        | some l =>
          if (hGet h l).isTag && ((hGet h l).tagName == tag) then
            let a1 := allocBr h cnt
            let h2 := hMod a1.1 l fun x => { x with contents := x.contents ++ [a1.2.2] }
            let h3 := hMod h2 l fun x =>
              { x with contents := x.contents ++ (hGet h2 child).contents }
            hRun tag fuel (hClear h3 child) a1.2.1 (.loop lc rest)
          else hRun tag fuel h cnt (.loop (some child) rest)
        | none => hRun tag fuel h cnt (.loop (some child) rest)
      else hRun tag fuel h cnt (.loop (some child) rest)

/-- `strip_attr` over the heap: rebuild the attribute dictionary without
`attr_name` (lines 123–130). -/
def hStripAttr (h : Heap) (i : Nat) (attr_name : String) : Heap :=
  hMod h i fun c => { c with battrs := c.battrs.filter fun e => !(e.1 == attr_name) }

/-- `strip_class_from_basics` over the heap (lines 154–161): for each
basic tag name, snapshot `findAll` and strip `class` from every hit. -/
def hStripBasics (h : Heap) (root : Nat) : Heap :=
  basics.foldl
    (fun hh b => (hFindAll hh root b).foldl (fun h2 t => hStripAttr h2 t "class") hh) h

/-! ## Page splitting (`split_pages`) -/

/-- Search a forest for the first `<hr>` element in document order
(`parent.find("hr")`) and extract it: the result is the forest with that
element's whole subtree removed, paired with the extracted subtree. -/
def extractFirstHr : List Node → List Node × Option Node
  | [] => ([], none)
  | c :: rest =>
    match c with
    | .text s =>
      match extractFirstHr rest with
      | (rest', h) => (.text s :: rest', h)
    | .elem n a kids =>
      if n == "hr" then (rest, some (.elem n a kids))
      else
        match extractFirstHr kids with
        | (kids', some h) => (.elem n a kids' :: rest, some h)
        | (_, none) =>
          match extractFirstHr rest with
          | (rest', h) => (.elem n a kids :: rest', h)

/-- Size of the extracted subtree is smaller than the size of the forest it
came from (needed for the termination of `split_pages`). -/
theorem extractFirstHr_size :
    ∀ (cs : List Node) (cs' : List Node) (h : Node),
      extractFirstHr cs = (cs', some h) → sizeOf h < sizeOf cs := by
  intro cs
  induction cs using extractFirstHr.induct with
  | case1 => intro cs' h he; simp [extractFirstHr] at he
  | case2 rest s rest' hopt hrest ih =>
    intro cs' h he
    rw [extractFirstHr, hrest] at he
    cases hopt with
    | none => simp at he
    | some hh =>
      simp only [Prod.mk.injEq, Option.some.injEq] at he
      have := ih rest' hh hrest
      simp only [← he.2] at this ⊢
      simp only [List.cons.sizeOf_spec]
      omega
  | case3 rest n a kids hn =>
    intro cs' h he
    rw [extractFirstHr] at he
    simp only [hn, if_true] at he
    simp only [Prod.mk.injEq, Option.some.injEq] at he
    simp only [← he.2]
    simp only [List.cons.sizeOf_spec]
    omega
  | case4 rest n a kids hn kids' hh hkids ih =>
    intro cs' h he
    rw [extractFirstHr] at he
    simp only [hn, if_false, Bool.false_eq_true, reduceIte, hkids] at he
    simp only [Prod.mk.injEq, Option.some.injEq] at he
    have := ih kids' hh hkids
    simp only [← he.2] at this ⊢
    simp only [List.cons.sizeOf_spec, Node.elem.sizeOf_spec]
    omega
  | case5 rest n a kids hn fst hnone rest' hopt hrest ihk ihr =>
    intro cs' h he
    rw [extractFirstHr] at he
    simp only [hn, Bool.false_eq_true, reduceIte, hnone, hrest] at he
    cases hopt with
    | none => simp at he
    | some hh =>
      simp only [Prod.mk.injEq, Option.some.injEq] at he
      have := ihr rest' hh hrest
      simp only [← he.2] at this ⊢
      simp only [List.cons.sizeOf_spec]
      omega

/-- Replace the children of a node (`hr.extract()` leaves the parent with
its remaining contents). -/
def Node.withKids : Node → List Node → Node
  | .text s, _ => .text s
  | .elem n a _, ks => .elem n a ks

/-- Embedding of `split_pages` (lines 109–121): find the first `<hr>`
descendant; when present, extract it (the parent keeps everything else) and
recurse into the extracted subtree; the parent is page 0 and the recursion
contributes the remaining pages. When no `<hr>` is found the parent is the
only page. -/
def split_pages (parent : Node) : List Node :=
  match he : extractFirstHr parent.kids with
  | (kids', some hr) => parent.withKids kids' :: split_pages hr
  | (_, none) => [parent]
termination_by sizeOf parent
decreasing_by
  have h1 := extractFirstHr_size _ _ _ he
  cases parent with
  | text s =>
    simp only [Node.kids] at h1
    simp at h1
    exact absurd h1 (by cases hr <;> simp <;> omega)
  | elem n a ks =>
    simp only [Node.kids] at h1
    simp
    omega

/-- Unfolding of `split_pages` when a separator is found. -/
theorem split_pages_cons (parent : Node) (kids' : List Node) (h : Node)
    (he : extractFirstHr parent.kids = (kids', some h)) :
    split_pages parent = parent.withKids kids' :: split_pages h := by
  rw [split_pages.eq_def]
  split
  next k2 h2 he2 =>
    rw [he] at he2
    simp at he2
    rw [he2.1, he2.2]
  next f2 he2 => rw [he] at he2; simp at he2

/-- Unfolding of `split_pages` when no separator remains. -/
theorem split_pages_last (parent : Node)
    (he : (extractFirstHr parent.kids).2 = none) :
    split_pages parent = [parent] := by
  rw [split_pages.eq_def]
  split
  next k2 h2 he2 => rw [he2] at he; simp at he
  next f2 he2 => rfl

/-! ## Observation helpers used by the statements -/

mutual
/-- Number of `<hr>` elements in a subtree, the root included. -/
def countHrN : Node → Nat
  | .text _ => 0
  | .elem n _ kids => (if n == "hr" then 1 else 0) + countHrF kids
/-- Number of `<hr>` elements in a forest. -/
def countHrF : List Node → Nat
  | [] => 0
  | c :: rest => countHrN c + countHrF rest
end

/-- The body's content with the `<hr>` separators removed: every `<hr>` node
is deleted and its children are spliced into its place. -/
def stripHrF : List Node → List Node
  | [] => []
  | .text s :: rest => .text s :: stripHrF rest
  | .elem n a kids :: rest =>
    if n == "hr" then stripHrF kids ++ stripHrF rest
    else .elem n a (stripHrF kids) :: stripHrF rest

/-- The shape `split_pages` is written for: after extracting the first
`<hr>`, no `<hr>` remains outside the extracted subtree, recursively (each
further separator is nested inside the previous one, which is how the
parser nests a Google-Docs export). -/
def hrNestedF (cs : List Node) : Bool :=
  match he : extractFirstHr cs with
  | (cs', some h) => countHrF cs' == 0 && hrNestedF h.kids
  | (_, none) => true
termination_by sizeOf cs
decreasing_by
  have h1 := extractFirstHr_size _ _ _ he
  have h2 : sizeOf h.kids ≤ sizeOf h := by
    cases h with
    | text s => simp [Node.kids]
    | elem n a ks => simp [Node.kids]
  omega

/-- The stricter shape under which splitting loses nothing: every `<hr>` is
the last child of its page root, all its siblings being `<hr>`-free, and its
own children have the same shape again. -/
def hrChainF : List Node → Bool
  | [] => true
  | [.elem n a kids] =>
    if n == "hr" then hrChainF kids else countHrF [.elem n a kids] == 0
  | c :: rest => countHrN c == 0 && hrChainF rest

mutual
/-- All elements of a subtree, the root included, in document order. -/
def elemsN : Node → List Node
  | .text _ => []
  | .elem n a kids => .elem n a kids :: elemsF kids
/-- All elements of a forest, in document order. -/
def elemsF : List Node → List Node
  | [] => []
  | c :: rest => elemsN c ++ elemsF rest
end

/-- Tag name of a node (`child.name`); a navigable string has name `None`. -/
def Node.name : Node → Option String
  | .text _ => none
  | .elem n _ _ => some n

/-- Attribute dictionary of a node (`tag.attrs`). -/
def Node.attrs : Node → Attrs
  | .text _ => []
  | .elem _ a _ => a

mutual
/-- Number of elements of a subtree whose name differs from `tag`, the root
included (navigable strings are not counted). -/
def countOtherN (tag : String) : Node → Nat
  | .text _ => 0
  | .elem n _ kids => (if n == tag then 0 else 1) + countOtherF tag kids
/-- Forest version of `countOtherN`. -/
def countOtherF (tag : String) : List Node → Nat
  | [] => 0
  | c :: rest => countOtherN tag c + countOtherF tag rest
end

/-- Serialization of an attribute dictionary. -/
def renderAttrs (a : Attrs) : String :=
  a.foldl (fun acc e =>
    acc ++ " " ++ e.1 ++ "=\x22" ++
      (match e.2 with
       | .str s => s
       | .strs l => String.intercalate " " l) ++ "\x22") ""

mutual
/-- Plain HTML serialization of a node: text renders as itself, the
`BeautifulSoup` document wrapper renders as its contents, an element
renders as its tag with its attributes and children (self-closing when
childless). -/
def renderN : Node → String
  | .text s => s
  | .elem n a kids =>
    if n == "[document]" then renderF kids
    else if kids.isEmpty then "<" ++ n ++ renderAttrs a ++ "/>"
    else "<" ++ n ++ renderAttrs a ++ ">" ++ renderF kids ++ "</" ++ n ++ ">"
/-- Forest version of `renderN`. -/
def renderF : List Node → String
  | [] => ""
  | c :: rest => renderN c ++ renderF rest
end

/-! ## Concrete documents used by the claims -/

/-- Document body of the concrete scenario of claim C10:
`<h6 class="c1">Herp</h6><h6 class="c1">Derp</h6>`. -/
def c10_body : Node :=
  .elem "body" []
    [.elem "h6" [("class", .strs ["c1"])] [.text "Herp"],
     .elem "h6" [("class", .strs ["c1"])] [.text "Derp"]]

/-- A body with two sibling `<hr>` separators (claims C2 and C3). -/
def sibling_hr_body : Node :=
  .elem "body" [] [.elem "hr" [] [], .elem "hr" [] [], .text "x"]

/-- A body whose separators nest as in a parsed Google-Docs export:
`A`, then `<hr>` containing `B` and a further `<hr>` containing `C`. -/
def nested_hr_body : Node :=
  .elem "body" []
    [.text "A", .elem "hr" [] [.text "B", .elem "hr" [] [.text "C"]]]

/-- The heap of the claim-C10 scenario body
`<h6 class="c1">Herp</h6><h6 class="c1">Derp</h6>` as bs4 parses it, with
parse-order chain `body → h6 → "Herp" → h6 → "Derp"`: cell 0 is the body,
1 and 3 the two `<h6>` elements, 2 and 4 their strings. The body is the
last element of its document, so its `next_sibling` is `None` and the
chain ends at `"Derp"`. -/
def c10_heap : Heap :=
  [(0, ⟨true, "body", "", [], [1, 3], none, none, some 1, none, none⟩),
   (1, ⟨true, "h6", "", [("class", .strs ["c1"])], [2], some 0, some 0, some 2, none, some 3⟩),
   (2, ⟨false, "", "Herp", [], [], some 1, some 1, some 3, none, none⟩),
   (3, ⟨true, "h6", "", [("class", .strs ["c1"])], [4], some 0, some 2, some 4, some 1, none⟩),
   (4, ⟨false, "", "Derp", [], [], some 3, some 3, none, none, none⟩)]

/-- The claim-C10 pipeline fragment over the heap: the class-strip pass on
the body, then the merge pass on `h6` (fresh identities from 5, so the
appended `BeautifulSoup("<br/>")` document is cell 5 and its `<br>` cell
6). -/
def c10_run : Heap :=
  (hRun "h6" 32 (hStripBasics c10_heap 0) 5 (.comb 0)).1

/-! ## General lemmas -/

/-- A left fold that keeps (the image of) the last element satisfying `p`
computes the first match of the reversed list. -/
theorem foldl_keep_last {α β : Type} (p : α → Bool) (g : α → β) :
    ∀ (l : List α) (init : Option β),
      l.foldl (fun acc x => if p x then some (g x) else acc) init =
        ((l.reverse.find? p).map g).or init := by
  intro l
  induction l with
  | nil => intro init; simp
  | cons x xs ih =>
    intro init
    simp only [List.foldl_cons, List.reverse_cons, List.find?_append]
    rw [ih]
    rcases hf : xs.reverse.find? p with _ | y
    · rcases hp : p x with _ | _ <;>
        simp [List.find?_cons, hp]
    · simp [Option.or]

/-- When `find?` for a predicate on the first component returns `e`, the
lookup of `e`'s own key also returns `e` (no earlier entry can carry the
same key, or the predicate search would have stopped there). -/
theorem find?_fst_name {β : Type} (q : String → Bool) :
    ∀ (l : List (String × β)) (e : String × β),
      l.find? (fun x => q x.1) = some e →
      l.find? (fun x => x.1 == e.1) = some e := by
  intro l
  induction l with
  | nil => intro e h; simp at h
  | cons x xs ih =>
    intro e h
    rcases hq : q x.1 with _ | _
    · rw [List.find?_cons_of_neg _ (by simp [hq])] at h
      have hqe : q e.1 = true := by
        have := List.find?_some h
        simpa using this
      have hne : (x.1 == e.1) = false := by
        rcases hx : x.1 == e.1 with _ | _
        · rfl
        · exfalso
          have hxe : x.1 = e.1 := by simpa using hx
          rw [hxe, hqe] at hq
          simp at hq
      rw [List.find?_cons_of_neg _ (by simp [hne])]
      exact ih e h
    · rw [List.find?_cons_of_pos _ (by simp [hq])] at h
      have hex : e = x := by simpa using h.symm
      rw [hex]
      rw [List.find?_cons_of_pos _ (by simp)]

/-- The `g = id` instance of `foldl_keep_last`. -/
theorem foldl_keep_last_id {α : Type} (p : α → Bool) (l : List α) (init : Option α) :
    l.foldl (fun acc x => if p x then some x else acc) init =
      (l.reverse.find? p).or init := by
  have h := foldl_keep_last p id l init
  simpa using h

/-- The name kept by the scan of `extract_html` reads back the bytes of the
last matching entry. -/
theorem zfRead_of_find (l : Archive) (e : String × Bytes)
    (h : l.reverse.find? (fun x => pyEndsWith (pyUpper x.1) ".HTML") = some e) :
    zfRead l e.1 = e.2 := by
  unfold zfRead
  rw [foldl_keep_last (fun x => x.1 == e.1) Prod.snd l none]
  rw [find?_fst_name (fun s => pyEndsWith (pyUpper s) ".HTML") l.reverse e h]
  rfl

/-! ## Claim theorems -/

/-- Claim C1 (corrected): `extract_html` returns the bytes of the **last**
entry whose name case-insensitively ends in `".HTML"` (`None` when there is
no such entry), not the first: the scanning loop has no `break`, so each
later match overwrites `html_file_name`. -/
theorem c1_extract_html_returns_last (file_name : Archive) :
    extract_html file_name =
      (file_name.reverse.find? fun e => pyEndsWith (pyUpper e.1) ".HTML").map Prod.snd := by
  simp only [extract_html]
  rw [foldl_keep_last (fun e => pyEndsWith (pyUpper e.1) ".HTML") Prod.fst file_name none]
  simp only [Option.or_none]
  rcases hf : file_name.reverse.find? (fun e => pyEndsWith (pyUpper e.1) ".HTML") with _ | e
  · rw [hf]
    rfl
  · rw [hf]
    show some (zfRead file_name e.1) = some e.2
    rw [zfRead_of_find file_name e hf]

/-- Claim C1, the counterexample to the claim as stated: in an archive with
two HTML entries the bytes of the second (last) one are returned, not the
bytes of the first. -/
theorem c1_counterexample :
    extract_html [("a.html", [1]), ("b.html", [2])] = some [2] ∧ ([2] : Bytes) ≠ [1] := by
  constructor
  · decide
  · decide

/-- Claim C4 (code bug): for an archive with no `.html` entry the extraction
does return the absent value, but the pipeline does **not** short-circuit:
`get_html_soup` hands the absent value straight to the DOM parser
(`BeautifulSoup(html_doc)` with `html_doc = None`), whatever the parser
does with it. -/
theorem c4_no_short_circuit :
    extract_html [("readme.txt", [0])] = none ∧
    ∀ {α : Type} (parse : Option Bytes → α),
      get_html_soup parse [("readme.txt", [0])] = parse none := by
  constructor
  · decide
  · intro α parse
    rfl

/-- Claim C5 (confirmed): when some rule of the stylesheet has exactly the
requested selector, `get_inline_style` returns the declarations of the
*last* such rule, each formatted as `name:value` and joined by `";"` in
declaration order. -/
theorem c5_resolve_selector_last (tinycss_sheet : Stylesheet) (tag : String) (r : Rule)
    (hlast : tinycss_sheet.reverse.find? (fun q => q.selector == tag) = some r) :
    get_inline_style tinycss_sheet tag =
      some (String.intercalate ";"
        (r.declarations.map fun d => d.name ++ ":" ++ String.intercalate " " d.value)) := by
  simp only [get_inline_style]
  rw [foldl_keep_last_id (fun q => q.selector == tag) tinycss_sheet none]
  rw [hlast]
  rfl

/-- Claim C5, witness: the stylesheet with two `.c2` rules (`color:red`
then `color:blue`) resolves `.c2` to `color:blue` — last match wins. -/
theorem c5_witness :
    (([⟨".c2", [⟨"color", ["red"]⟩]⟩, ⟨".c2", [⟨"color", ["blue"]⟩]⟩] :
        Stylesheet).reverse.find? (fun q => q.selector == ".c2") =
      some ⟨".c2", [⟨"color", ["blue"]⟩]⟩) ∧
    get_inline_style [⟨".c2", [⟨"color", ["red"]⟩]⟩, ⟨".c2", [⟨"color", ["blue"]⟩]⟩] ".c2" =
      some "color:blue" := by
  refine ⟨by decide, ?_⟩
  rw [c5_resolve_selector_last _ ".c2" ⟨".c2", [⟨"color", ["blue"]⟩]⟩ (by decide)]
  decide

/-- Claim C10: both halves of the claim contradict the program, in
opposite directions. First, `"h6"` *is* in `basics`, so the class-strip
pass applies and removes `class="c1"` from both elements (cells 1 and 3),
refuting "not applicable … the class persists". Second, the merge loop
absorbs `Derp` into the first `<h6>` by raw `contents` writes
(`[Herp, br-document, Derp]` in cell 1), which bs4's parse-order chain
never learns of; `clear()` moreover unlinks `Derp` from the chain. The
cleanup's `findChildren()` walks that chain, sees only the string `Herp`
under the merged element, counts zero Tags, and `extract()`s it: the pass
leaves the body (cell 0) with *no contents at all*. The claimed single
`<h6>Herp<br/>Derp</h6>` — also promised by the function's own docstring,
line 86 — survives only inside the extracted, orphaned cell 1, which the
body no longer reaches. -/
theorem c10_strip_then_merge :
    ("h6" ∈ basics ∧
      getAttr (hGet (hStripBasics c10_heap 0) 1).battrs "class" = none ∧
      getAttr (hGet (hStripBasics c10_heap 0) 3).battrs "class" = none) ∧
    (hGet c10_run 0).contents = [] ∧
    (hGet c10_run 1).contents = [2, 5, 4] ∧
    (hGet c10_run 1).bparent = none := by
  exact ⟨⟨by decide, by decide, by decide⟩, by decide, by decide, by decide⟩

/-- Claim C8, counterexample to the claim as stated: a `<h6>` whose content
is purely textual (`<h6>Herp</h6>`) has no *element* children, so the
cleanup sweep of the merge pass removes it although it has content —
`findChildren()` counts descendant Tags only. No merge fires on this body
(a single target child), so the parse-order chain stays consistent and the
contents-tree evaluation of the pass is exact. -/
theorem c8_counterexample :
    Node.kids (.elem "h6" [] [.text "Herp"]) = [.text "Herp"] ∧
    combine_tags (.elem "body" [] [.elem "h6" [] [.text "Herp"]]) "h6" =
      .elem "body" [] [] := by
  constructor
  · decide
  · decide

/-! ## Page splitting lemmas -/

/-- Unfolding of `hrNestedF` when a separator is found. -/
theorem hrNestedF_cons (cs : List Node) (kids' : List Node) (h : Node)
    (he : extractFirstHr cs = (kids', some h)) :
    hrNestedF cs = (countHrF kids' == 0 && hrNestedF h.kids) := by
  rw [hrNestedF.eq_def]
  split
  next k2 h2 he2 => rw [he] at he2; simp at he2; rw [he2.1, he2.2]
  next f2 he2 => rw [he] at he2; simp at he2

/-- Unfolding of `hrNestedF` when no separator remains. -/
theorem hrNestedF_none (cs : List Node) (he : (extractFirstHr cs).2 = none) :
    hrNestedF cs = true := by
  rw [hrNestedF.eq_def]
  split
  next k2 h2 he2 => rw [he2] at he; simp at he
  next f2 he2 => rfl

/-- Extracting the first `<hr>` removes exactly one `<hr>` besides the ones
inside the extracted subtree. -/
theorem extractFirstHr_count :
    ∀ (cs cs' : List Node) (h : Node),
      extractFirstHr cs = (cs', some h) →
      countHrF cs = countHrF cs' + 1 + countHrF h.kids := by
  intro cs
  induction cs using extractFirstHr.induct with
  | case1 => intro cs' h he; simp [extractFirstHr] at he
  | case2 rest s rest' hopt hrest ih =>
    intro cs' h he
    rw [extractFirstHr, hrest] at he
    cases hopt with
    | none => simp at he
    | some hh =>
      simp only [Prod.mk.injEq, Option.some.injEq] at he
      have hc := ih rest' hh hrest
      rw [← he.1, ← he.2]
      simp only [countHrF, countHrN]
      omega
  | case3 rest n a kids hn =>
    intro cs' h he
    rw [extractFirstHr] at he
    simp only [hn, if_true] at he
    simp only [Prod.mk.injEq, Option.some.injEq] at he
    rw [← he.1, ← he.2]
    simp only [countHrF, countHrN, hn, Node.kids, if_true]
    omega
  | case4 rest n a kids hn kids' hh hkids ih =>
    intro cs' h he
    rw [extractFirstHr] at he
    simp only [hn, Bool.false_eq_true, reduceIte, hkids] at he
    simp only [Prod.mk.injEq, Option.some.injEq] at he
    have hc := ih kids' hh hkids
    rw [← he.1, ← he.2]
    simp only [countHrF, countHrN, hn, Bool.false_eq_true, reduceIte]
    omega
  | case5 rest n a kids hn fst hnone rest' hopt hrest ihk ihr =>
    intro cs' h he
    rw [extractFirstHr] at he
    simp only [hn, Bool.false_eq_true, reduceIte, hnone, hrest] at he
    cases hopt with
    | none => simp at he
    | some hh =>
      simp only [Prod.mk.injEq, Option.some.injEq] at he
      have hc := ihr rest' hh hrest
      rw [← he.1, ← he.2]
      simp only [countHrF]
      omega

/-- A forest in which no `<hr>` was found has no `<hr>` at all. -/
theorem extractFirstHr_none_count :
    ∀ (cs : List Node), (extractFirstHr cs).2 = none → countHrF cs = 0 := by
  intro cs
  induction cs using extractFirstHr.induct with
  | case1 => intro _; rfl
  | case2 rest s rest' hopt hrest ih =>
    intro he
    rw [extractFirstHr, hrest] at he
    cases hopt with
    | none =>
      simp only [countHrF, countHrN]
      have := ih (by rw [hrest])
      omega
    | some hh => simp at he
  | case3 rest n a kids hn =>
    intro he
    rw [extractFirstHr] at he
    simp [hn] at he
  | case4 rest n a kids hn kids' hh hkids ih =>
    intro he
    rw [extractFirstHr] at he
    simp [hn, hkids] at he
  | case5 rest n a kids hn fst hnone rest' hopt hrest ihk ihr =>
    intro he
    rw [extractFirstHr] at he
    simp only [hn, Bool.false_eq_true, reduceIte, hnone, hrest] at he
    cases hopt with
    | none =>
      have h1 := ihk (by rw [hnone])
      have h2 := ihr (by rw [hrest])
      simp only [countHrF, countHrN, hn, Bool.false_eq_true, reduceIte]
      omega
    | some hh => simp at he

/-- When no `<hr>` is found the forest is returned unchanged. -/
theorem extractFirstHr_none_fst :
    ∀ (cs : List Node), (extractFirstHr cs).2 = none → (extractFirstHr cs).1 = cs := by
  intro cs
  induction cs using extractFirstHr.induct with
  | case1 => intro _; simp [extractFirstHr]
  | case2 rest s rest' hopt hrest ih =>
    intro he
    rw [extractFirstHr, hrest] at he ⊢
    cases hopt with
    | none =>
      have := ih (by rw [hrest])
      rw [hrest] at this
      simp at this ⊢
      exact this
    | some hh => simp at he
  | case3 rest n a kids hn =>
    intro he
    rw [extractFirstHr] at he
    simp [hn] at he
  | case4 rest n a kids hn kids' hh hkids ih =>
    intro he
    rw [extractFirstHr] at he
    simp [hn, hkids] at he
  | case5 rest n a kids hn fst hnone rest' hopt hrest ihk ihr =>
    intro he
    rw [extractFirstHr] at he ⊢
    simp only [hn, Bool.false_eq_true, reduceIte, hnone, hrest] at he ⊢
    cases hopt with
    | none =>
      have := ihr (by rw [hrest])
      rw [hrest] at this
      simp at this ⊢
      exact this
    | some hh => simp at he

/-- Replacing the children by themselves is the identity. -/
theorem Node.withKids_kids (parent : Node) : parent.withKids parent.kids = parent := by
  cases parent with
  | text s => rfl
  | elem n a ks => rfl

/-- Claim C2, counterexample to the claim as stated: a body whose two
`<hr>` separators are *siblings* yields only 2 pages, not `k + 1 = 3` —
`split_pages` extracts just the first `<hr>` and recurses only into the
extracted subtree, so the second sibling separator is never split off. -/
theorem c2_counterexample :
    countHrF sibling_hr_body.kids = 2 ∧
    (split_pages sibling_hr_body).length ≠ countHrF sibling_hr_body.kids + 1 := by
  refine ⟨by decide, ?_⟩
  rw [split_pages_cons sibling_hr_body [.elem "hr" [] [], .text "x"] (.elem "hr" [] [])
        (by simp [sibling_hr_body, Node.kids, extractFirstHr]),
     split_pages_last (.elem "hr" [] []) (by simp [Node.kids, extractFirstHr])]
  decide

/-- Claim C2 (amended): when each further separator is nested inside the
previously extracted one (`hrNestedF`, the shape the recursion is written
for), a body with `k` `<hr>` descendants splits into exactly `k + 1` pages,
page 0 being the original body truncated at its first `<hr>`. -/
theorem c2_nested_split (parent : Node) (hn : hrNestedF parent.kids = true) :
    (split_pages parent).length = countHrF parent.kids + 1 ∧
    (split_pages parent).head? = some (parent.withKids (extractFirstHr parent.kids).1) := by
  induction parent using split_pages.induct with
  | case1 x kids' hr he ih =>
    rw [hrNestedF_cons _ kids' hr he] at hn
    simp only [Bool.and_eq_true, beq_iff_eq] at hn
    have hihl := (ih hn.2).1
    rw [split_pages_cons x kids' hr he]
    constructor
    · simp only [List.length_cons, hihl]
      have hc := extractFirstHr_count x.kids kids' hr he
      omega
    · simp only [List.head?_cons, he]
  | case2 x fst he =>
    have h0 : (extractFirstHr x.kids).2 = none := by rw [he]
    rw [split_pages_last x h0]
    constructor
    · rw [extractFirstHr_none_count x.kids h0]
      simp
    · rw [extractFirstHr_none_fst x.kids h0, Node.withKids_kids]
      rfl

/-! ## Reconstruction lemmas for claim C3 -/

/-- A forest without `<hr>` is returned unchanged by the search. -/
theorem extractFirstHr_of_count_zero :
    ∀ (cs : List Node), countHrF cs = 0 → extractFirstHr cs = (cs, none) := by
  intro cs
  induction cs using extractFirstHr.induct with
  | case1 => intro _; simp [extractFirstHr]
  | case2 rest s rest' hopt hrest ih =>
    intro h0
    simp only [countHrF, countHrN] at h0
    rw [extractFirstHr, ih (by omega)]
  | case3 rest n a kids hn =>
    intro h0
    simp only [countHrF, countHrN, hn, if_true] at h0
    omega
  | case4 rest n a kids hn kids' hh hkids ih =>
    intro h0
    simp only [countHrF, countHrN, hn, Bool.false_eq_true, reduceIte] at h0
    rw [ih (by omega)] at hkids
    simp at hkids
  | case5 rest n a kids hn fst hnone rest' hopt hrest ihk ihr =>
    intro h0
    simp only [countHrF, countHrN, hn, Bool.false_eq_true, reduceIte] at h0
    rw [extractFirstHr, ihk (by omega), ihr (by omega)]
    simp [hn]

/-- Stripping separators from a separator-free forest is the identity. -/
theorem stripHrF_of_count_zero :
    ∀ (cs : List Node), countHrF cs = 0 → stripHrF cs = cs := by
  intro cs
  induction cs using stripHrF.induct with
  | case1 => intro _; simp [stripHrF]
  | case2 s rest ih =>
    intro h0
    simp only [countHrF, countHrN] at h0
    rw [stripHrF, ih (by omega)]
  | case3 n a kids rest hn ihk ihr =>
    intro h0
    simp only [countHrF, countHrN, hn, if_true] at h0
    omega
  | case4 n a kids rest hn ihk ihr =>
    intro h0
    simp only [countHrF, countHrN, hn, Bool.false_eq_true, reduceIte] at h0
    rw [stripHrF]
    rw [ihk (by omega), ihr (by omega)]
    simp [hn]

/-- `stripHrF` distributes over appending. -/
theorem stripHrF_append :
    ∀ (xs ys : List Node), stripHrF (xs ++ ys) = stripHrF xs ++ stripHrF ys := by
  intro xs
  induction xs using stripHrF.induct with
  | case1 => intro ys; simp [stripHrF]
  | case2 s rest ih =>
    intro ys
    simp only [List.cons_append]
    rw [stripHrF, ih, stripHrF]
    simp
  | case3 n a kids rest hn ihk ihr =>
    intro ys
    simp only [List.cons_append]
    rw [stripHrF, ihr]
    conv_rhs => rw [stripHrF]
    simp [hn, List.append_assoc]
  | case4 n a kids rest hn ihk ihr =>
    intro ys
    simp only [List.cons_append]
    rw [stripHrF, ihr]
    conv_rhs => rw [stripHrF]
    simp [hn]

/-- Searching a separator-free prefix followed by an `<hr>` last child
extracts exactly that `<hr>`, leaving the prefix. -/
theorem extractFirstHr_append_hr (a : Attrs) (hks : List Node) :
    ∀ (init : List Node), countHrF init = 0 →
      extractFirstHr (init ++ [.elem "hr" a hks]) = (init, some (.elem "hr" a hks)) := by
  intro init
  induction init with
  | nil =>
    intro _
    simp only [List.nil_append]
    rw [extractFirstHr]
    simp
  | cons c rest ih =>
    intro h0
    simp only [countHrF] at h0
    cases c with
    | text s =>
      simp only [List.cons_append]
      rw [extractFirstHr, ih (by simp only [countHrN] at h0; omega)]
    | elem n b kids =>
      have hn : (n == "hr") = false := by
        rcases hx : n == "hr" with _ | _
        · rfl
        · exfalso
          simp only [countHrN, hx, if_true] at h0
          omega
      have hkz : countHrF kids = 0 := by
        simp only [countHrN, hn, Bool.false_eq_true, reduceIte] at h0
        omega
      have hrz : countHrF rest = 0 := by
        simp only [countHrN, hn, Bool.false_eq_true, reduceIte] at h0
        omega
      simp only [List.cons_append]
      rw [extractFirstHr, extractFirstHr_of_count_zero kids hkz, ih hrz]
      simp [hn]

/-- Shape analysis of a chain forest: it is separator-free, or it is a
separator-free prefix followed by an `<hr>` last child whose children form
a chain again. -/
theorem hrChainF_cases :
    ∀ (cs : List Node), hrChainF cs = true →
      countHrF cs = 0 ∨
      ∃ init a hks, cs = init ++ [.elem "hr" a hks] ∧ countHrF init = 0 ∧
        hrChainF hks = true := by
  intro cs
  induction cs using hrChainF.induct with
  | case1 => intro _; left; rfl
  | case2 n a kids hn ih =>
    intro hc
    rw [hrChainF] at hc
    right
    refine ⟨[], a, kids, ?_, rfl, ?_⟩
    · have hne : n = "hr" := by simpa using hn
      rw [hne]
      rfl
    · rw [hn] at hc
      simpa using hc
  | case3 n a kids hn =>
    intro hc
    rw [hrChainF] at hc
    left
    rw [if_neg (by simpa using hn)] at hc
    simpa using hc
  | case4 c rest hne ih =>
    intro hc
    have hrw : hrChainF (c :: rest) = (countHrN c == 0 && hrChainF rest) := by
      cases c with
      | text t =>
        cases rest with
        | nil => rw [hrChainF.eq_def]
        | cons r rs => rw [hrChainF.eq_def]
      | elem nn aa kk =>
        cases rest with
        | nil => exact absurd rfl (hne nn aa kk rfl)
        | cons r rs => rw [hrChainF.eq_def]
    rw [hrw] at hc
    simp only [Bool.and_eq_true, beq_iff_eq] at hc
    rcases ih hc.2 with h0 | ⟨init, a, hks, heqr, hinit0, hchain⟩
    · left
      simp only [countHrF]
      omega
    · right
      refine ⟨c :: init, a, hks, ?_, ?_, hchain⟩
      · rw [heqr]
        rfl
      · simp only [countHrF]
        omega

/-- Unfolding of `hrChainF` for a leading navigable string. -/
theorem hrChainF_cons_text (t : String) (rest : List Node) :
    hrChainF (.text t :: rest) = hrChainF rest := by
  cases rest with
  | nil =>
    rw [hrChainF.eq_def]
    simp [countHrN, hrChainF]
  | cons r rs =>
    rw [hrChainF.eq_def]
    simp [countHrN]

/-- Unfolding of `hrChainF` for a singleton element. -/
theorem hrChainF_singleton (n : String) (a : Attrs) (ks : List Node) :
    hrChainF [.elem n a ks] =
      if n == "hr" then hrChainF ks else countHrF [Node.elem n a ks] == 0 := by
  rw [hrChainF.eq_def]

/-- Unfolding of `hrChainF` for a list with at least two entries. -/
theorem hrChainF_cons_cons (c d : Node) (rest : List Node) :
    hrChainF (c :: d :: rest) = (countHrN c == 0 && hrChainF (d :: rest)) := by
  cases c with
  | text t => rw [hrChainF.eq_def]
  | elem nn aa kk => rw [hrChainF.eq_def]

/-- Claim C3, counterexample to the claim as stated: with two sibling
`<hr>` separators the second separator stays inside page 0 (it is never
extracted), so the concatenated page contents do not equal the body content
minus the separators. -/
theorem c3_counterexample :
    ((split_pages sibling_hr_body).map Node.kids).flatten ≠
      stripHrF sibling_hr_body.kids := by
  rw [split_pages_cons sibling_hr_body [.elem "hr" [] [], .text "x"] (.elem "hr" [] [])
        (by simp [sibling_hr_body, Node.kids, extractFirstHr]),
     split_pages_last (.elem "hr" [] []) (by simp [Node.kids, extractFirstHr])]
  have hs : stripHrF sibling_hr_body.kids = [.text "x"] := by
    simp [sibling_hr_body, Node.kids, stripHrF]
  rw [hs]
  decide

/-- Claim C3 (amended): when every separator is the last child of its page
root with separator-free siblings (`hrChainF`, the shape of a Google-Docs
export as parsed), concatenating the contents of all pages in order —
ignoring the extracted `<hr>` roots themselves — reconstructs exactly the
original body content minus the separators. -/
theorem c3_chain_reconstruct (parent : Node) (hc : hrChainF parent.kids = true) :
    ((split_pages parent).map Node.kids).flatten = stripHrF parent.kids := by
  induction parent using split_pages.induct with
  | case1 x kids' hr he ih =>
    rcases hrChainF_cases x.kids hc with h0 | ⟨init, a, hks, heqr, hinit0, hchain⟩
    · rw [extractFirstHr_of_count_zero x.kids h0] at he
      simp at he
    · rw [heqr, extractFirstHr_append_hr a hks init hinit0] at he
      simp only [Prod.mk.injEq, Option.some.injEq] at he
      cases x with
      | text s =>
        exfalso
        have : (Node.text s).kids = [] := rfl
        rw [this] at heqr
        exact absurd heqr.symm (by simp)
      | elem n b ks =>
        rw [split_pages_cons (.elem n b ks) kids' hr
              (by rw [show (Node.elem n b ks).kids = ks from rfl] at heqr ⊢; rw [heqr,
                    extractFirstHr_append_hr a hks init hinit0, he.1, he.2])]
        simp only [List.map_cons, List.flatten_cons]
        have hkw : (Node.withKids (.elem n b ks) kids').kids = kids' := rfl
        rw [hkw]
        have hih := ih (by rw [← he.2]; exact hchain)
        rw [hih]
        have hx : (Node.elem n b ks).kids = ks := rfl
        rw [hx] at heqr ⊢
        rw [heqr, stripHrF_append, stripHrF_of_count_zero init hinit0]
        rw [← he.1, ← he.2]
        simp [stripHrF, Node.kids]
  | case2 x fst he =>
    have h0 : (extractFirstHr x.kids).2 = none := by rw [he]
    rw [split_pages_last x h0]
    have hcount := extractFirstHr_none_count x.kids h0
    rw [stripHrF_of_count_zero x.kids hcount]
    simp

/-- Claim C2, witness: the nested two-separator body satisfies the nesting
hypothesis and splits into `2 + 1 = 3` pages headed by the truncated
body. -/
theorem c2_witness :
    hrNestedF nested_hr_body.kids = true ∧
    ((split_pages nested_hr_body).length = countHrF nested_hr_body.kids + 1 ∧
     (split_pages nested_hr_body).head? =
       some (nested_hr_body.withKids (extractFirstHr nested_hr_body.kids).1)) := by
  have h2 : hrNestedF [Node.text "C"] = true :=
    hrNestedF_none _ (by simp [extractFirstHr])
  have h1 : hrNestedF [Node.text "B", .elem "hr" [] [.text "C"]] = true := by
    rw [hrNestedF_cons _ [.text "B"] (.elem "hr" [] [.text "C"])
          (by simp [extractFirstHr])]
    simp [Node.kids, h2, countHrF, countHrN]
  have h0 : hrNestedF nested_hr_body.kids = true := by
    rw [show nested_hr_body.kids =
          [Node.text "A", .elem "hr" [] [.text "B", .elem "hr" [] [.text "C"]]] from rfl]
    rw [hrNestedF_cons _ [.text "A"] (.elem "hr" [] [.text "B", .elem "hr" [] [.text "C"]])
          (by simp [extractFirstHr])]
    simp [Node.kids, h1, countHrF, countHrN]
  exact ⟨h0, c2_nested_split nested_hr_body h0⟩

/-- Claim C3, witness: the nested two-separator body satisfies the chain
hypothesis and its pages concatenate back to `A`, `B`, `C`. -/
theorem c3_witness :
    hrChainF nested_hr_body.kids = true ∧
    ((split_pages nested_hr_body).map Node.kids).flatten =
      stripHrF nested_hr_body.kids := by
  have h0 : hrChainF nested_hr_body.kids = true := by
    rw [show nested_hr_body.kids =
          [Node.text "A", .elem "hr" [] [.text "B", .elem "hr" [] [.text "C"]]] from rfl]
    rw [hrChainF_cons_cons, hrChainF_singleton]
    simp only [countHrN, if_true]
    rw [hrChainF_cons_cons, hrChainF_singleton]
    simp only [countHrN, if_true]
    rw [hrChainF_cons_text]
    simp [hrChainF, countHrN]
  exact ⟨h0, c3_chain_reconstruct nested_hr_body h0⟩

/-! ## Lemmas for claim C7 -/

mutual
/-- Rewriting attributes twice composes the rewrites (node version). -/
theorem mapAttrsN_comp (f g : String → Attrs → Attrs) (c : Node) :
    mapAttrsN f (mapAttrsN g c) = mapAttrsN (fun n a => f n (g n a)) c := by
  cases c with
  | text s => rfl
  | elem n a kids =>
    simp only [mapAttrsN, mapAttrsF_comp f g kids]
termination_by sizeOf c

/-- Rewriting attributes twice composes the rewrites (forest version). -/
theorem mapAttrsF_comp (f g : String → Attrs → Attrs) (cs : List Node) :
    mapAttrsF f (mapAttrsF g cs) = mapAttrsF (fun n a => f n (g n a)) cs := by
  cases cs with
  | nil => rfl
  | cons c rest =>
    simp only [mapAttrsF, mapAttrsN_comp f g c, mapAttrsF_comp f g rest]
termination_by sizeOf cs
end

mutual
/-- Pointwise equal attribute rewrites act identically (node version). -/
theorem mapAttrsN_congr (f g : String → Attrs → Attrs)
    (h : ∀ n a, f n a = g n a) (c : Node) : mapAttrsN f c = mapAttrsN g c := by
  cases c with
  | text s => rfl
  | elem n a kids =>
    simp only [mapAttrsN, h n a, mapAttrsF_congr f g h kids]
termination_by sizeOf c

/-- Pointwise equal attribute rewrites act identically (forest version). -/
theorem mapAttrsF_congr (f g : String → Attrs → Attrs)
    (h : ∀ n a, f n a = g n a) (cs : List Node) : mapAttrsF f cs = mapAttrsF g cs := by
  cases cs with
  | nil => rfl
  | cons c rest =>
    simp only [mapAttrsF, mapAttrsN_congr f g h c, mapAttrsF_congr f g h rest]
termination_by sizeOf cs
end

mutual
/-- The identity attribute rewrite is the identity (node version). -/
theorem mapAttrsN_id (c : Node) : mapAttrsN (fun _ a => a) c = c := by
  cases c with
  | text s => rfl
  | elem n a kids => simp only [mapAttrsN, mapAttrsF_id kids]
termination_by sizeOf c

/-- The identity attribute rewrite is the identity (forest version). -/
theorem mapAttrsF_id (cs : List Node) : mapAttrsF (fun _ a => a) cs = cs := by
  cases cs with
  | nil => rfl
  | cons c rest => simp only [mapAttrsF, mapAttrsN_id c, mapAttrsF_id rest]
termination_by sizeOf cs
end

/-- Removing an attribute twice is the same as removing it once. -/
theorem strip_attr_idem (a : Attrs) (k : String) :
    strip_attr (strip_attr a k) k = strip_attr a k := by
  simp only [strip_attr, List.filter_filter, Bool.and_self]

/-- The folded per-tag stripping loop equals the one-pass specification
rewrite. -/
theorem strip_fold (bs : List String) :
    ∀ (soup : Node),
      bs.foldl (fun s b => strip_soup_tags_attr s b "class") soup = stripSpec bs soup := by
  induction bs with
  | nil =>
    intro soup
    cases soup with
    | text s => rfl
    | elem n a kids =>
      have h1 : mapAttrsF
          (fun m attrs => if ([] : List String).contains m then strip_attr attrs "class"
            else attrs) kids = kids := by
        rw [mapAttrsF_congr _ (fun _ a => a) (by intro n2 a2; simp), mapAttrsF_id]
      simp only [List.foldl_nil, stripSpec, h1]
  | cons b bs ih =>
    intro soup
    simp only [List.foldl_cons]
    rw [ih]
    cases soup with
    | text s => rfl
    | elem n a kids =>
      simp only [strip_soup_tags_attr, stripSpec, mapAttrsF_comp]
      congr 1
      apply mapAttrsF_congr
      intro m attrs
      rw [List.contains_cons]
      by_cases hm : (m == b) = true
      · simp [hm, strip_attr_idem]
      · simp only [Bool.not_eq_true] at hm
        simp [hm]

/-- Removing an attribute really removes it. -/
theorem getAttr_strip_self (a : Attrs) (k : String) :
    getAttr (strip_attr a k) k = none := by
  induction a with
  | nil => rfl
  | cons e rest ih =>
    rcases he : e.1 == k with _ | _
    · simp only [strip_attr, List.filter_cons, he, Bool.not_false, if_true]
      simp only [getAttr, List.find?_cons, he]
      simpa [getAttr, strip_attr] using ih
    · simp only [strip_attr, List.filter_cons, he, Bool.not_true, Bool.false_eq_true,
        reduceIte]
      simpa [getAttr, strip_attr] using ih

/-- Removing one attribute leaves the lookup of every other key
unchanged. -/
theorem getAttr_strip_ne (a : Attrs) (k k' : String) (hk : ¬k' = k) :
    getAttr (strip_attr a k) k' = getAttr a k' := by
  induction a with
  | nil => rfl
  | cons e rest ih =>
    rcases he : e.1 == k' with _ | _
    · rcases hek : e.1 == k with _ | _
      · simp only [strip_attr, List.filter_cons, hek, Bool.not_false, if_true]
        simp only [getAttr, List.find?_cons, he]
        simpa [getAttr, strip_attr] using ih
      · simp only [strip_attr, List.filter_cons, hek, Bool.not_true, Bool.false_eq_true,
          reduceIte]
        simp only [getAttr, List.find?_cons, he]
        simpa [getAttr, strip_attr] using ih
    · have hek : (e.1 == k) = false := by
        rcases hx : e.1 == k with _ | _
        · rfl
        · exfalso
          have h1 : e.1 = k' := by simpa using he
          have h2 : e.1 = k := by simpa using hx
          exact hk (h1 ▸ h2)
      simp only [strip_attr, List.filter_cons, hek, Bool.not_false, if_true]
      simp only [getAttr, List.find?_cons, he]

/-- Claim C7 (confirmed): the class-stripping pass removes `class` from
every element whose tag is in the fixed structural set (it equals the
one-pass rewrite `stripSpec basics`), and the per-element rewrite
`strip_attr _ "class"` deletes exactly the `class` entry: lookups of every
other key are unchanged. -/
theorem c7_strip_class_from_basics (soup : Node) :
    strip_class_from_basics soup = stripSpec basics soup ∧
    (∀ (a : Attrs), getAttr (strip_attr a "class") "class" = none) ∧
    (∀ (a : Attrs) (k : String), ¬k = "class" →
      getAttr (strip_attr a "class") k = getAttr a k) := by
  refine ⟨strip_fold basics soup, ?_, ?_⟩
  · intro a
    exact getAttr_strip_self a "class"
  · intro a k hk
    exact getAttr_strip_ne a "class" k hk

/-- Claim C7, witness: a `<p class="c1" style="x" id="y">` keeps `style`
and `id` and loses exactly `class`. -/
theorem c7_witness :
    strip_class_from_basics
        (.elem "body" [] [.elem "p" [("class", .strs ["c1"]), ("style", .str "x")] []]) =
      stripSpec basics
        (.elem "body" [] [.elem "p" [("class", .strs ["c1"]), ("style", .str "x")] []]) ∧
    getAttr (strip_attr [("class", .strs ["c1"]), ("style", .str "x")] "class") "style" =
      some (.str "x") ∧
    getAttr (strip_attr [("class", .strs ["c1"]), ("style", .str "x")] "class") "class" =
      none := by
  refine ⟨(c7_strip_class_from_basics _).1, ?_, ?_⟩
  · rw [(c7_strip_class_from_basics (.text "")).2.2
        [("class", .strs ["c1"]), ("style", .str "x")] "style" (by decide)]
    decide
  · exact (c7_strip_class_from_basics (.text "")).2.1 [("class", .strs ["c1"]), ("style", .str "x")]

/-! ## Lemmas for claim C6 -/

/-- Unfolding of an attribute lookup over a cons. -/
theorem getAttr_cons (e : String × AttrValue) (rest : Attrs) (k : String) :
    getAttr (e :: rest) k = if e.1 == k then some e.2 else getAttr rest k := by
  simp only [getAttr, List.find?_cons]
  rcases he : e.1 == k with _ | _ <;> simp

/-- Two different keys compare as `false` under `==`. -/
theorem beq_false_of_ne (k k' : String) (hk : ¬k' = k) : (k == k') = false := by
  rcases hx : k == k' with _ | _
  · rfl
  · have hkk : k = k' := by simpa using hx
    exact absurd hkk.symm hk

/-- Overwriting the entries of one key does not change the lookup of any
other key. -/
theorem getAttr_map_set_ne (rest : Attrs) (k k' : String) (v : AttrValue)
    (hk : ¬k' = k) :
    getAttr (rest.map fun e => if e.1 == k then (k, v) else e) k' = getAttr rest k' := by
  induction rest with
  | nil => rfl
  | cons e rs ih =>
    rcases he : e.1 == k with _ | _
    · simp only [List.map_cons, he, Bool.false_eq_true, reduceIte, getAttr_cons, ih]
    · simp only [List.map_cons, he, if_true, getAttr_cons, ih]
      have h1 : (k == k') = false := beq_false_of_ne k k' hk
      have h2 : (e.1 == k') = false := by
        have hek : e.1 = k := by simpa using he
        rw [hek]
        exact h1
      rw [h1, h2]
      simp

/-- Appending an entry of a different key does not change a lookup. -/
theorem getAttr_append_single_ne (a : Attrs) (k k' : String) (v : AttrValue)
    (h1 : (k == k') = false) :
    getAttr (a ++ [(k, v)]) k' = getAttr a k' := by
  induction a with
  | nil => simp [getAttr, List.find?_cons, h1]
  | cons e rs ih =>
    simp only [List.cons_append, getAttr_cons, ih]

/-- Looking up a key just set yields the new value. -/
theorem getAttr_setAttr_self (a : Attrs) (k : String) (v : AttrValue) :
    getAttr (setAttr a k v) k = some v := by
  simp only [setAttr]
  by_cases h : a.any (fun e => e.1 == k) = true
  · rw [if_pos h]
    induction a with
    | nil => simp at h
    | cons e rest ih =>
      rcases he : e.1 == k with _ | _
      · simp only [List.any_cons, he, Bool.false_or] at h
        simp only [List.map_cons, he, Bool.false_eq_true, reduceIte, getAttr_cons]
        exact ih h
      · simp only [List.map_cons, he, if_true, getAttr_cons]
        simp
  · rw [if_neg h]
    induction a with
    | nil => simp [getAttr, List.find?_cons]
    | cons e rest ih =>
      simp only [Bool.not_eq_true, List.any_cons, Bool.or_eq_false_iff] at h
      simp only [List.cons_append, getAttr_cons, h.1, Bool.false_eq_true, reduceIte]
      exact ih (by simp [h.2])

/-- Setting one key leaves the lookup of every other key unchanged. -/
theorem getAttr_setAttr_ne (a : Attrs) (k k' : String) (v : AttrValue)
    (hk : ¬k' = k) :
    getAttr (setAttr a k v) k' = getAttr a k' := by
  simp only [setAttr]
  by_cases h : a.any (fun e => e.1 == k) = true
  · rw [if_pos h]
    exact getAttr_map_set_ne a k k' v hk
  · rw [if_neg h]
    exact getAttr_append_single_ne a k k' v (beq_false_of_ne k k' hk)

mutual
/-- After the inline-ify rewrite of a node, no `span` element anywhere in
the result carries a truthy `class` (node version). -/
theorem inlineNode_spans (styles : Stylesheet) (c : Node) :
    ∀ (c' : Node), inlineNode styles c = some c' →
      ∀ m ∈ elemsN c', m.name = some "span" →
        truthy (getAttr m.attrs "class") = false := by
  cases c with
  | text s =>
    intro c' h m hm hname
    simp only [inlineNode, Option.some.injEq] at h
    rw [← h] at hm
    simp [elemsN] at hm
  | elem n a kids =>
    intro c' h m hm hname
    simp only [inlineNode] at h
    rcases hf : inlineForest styles kids with _ | kids'
    · rw [hf] at h
      simp at h
    · simp only [hf] at h
      by_cases hs : (n == "span") = true
      · rw [if_pos hs] at h
        simp only [replace_tag_with_inline_css] at h
        by_cases ht : truthy (getAttr a "class") = true
        · rw [if_pos ht] at h
          rcases hcv : getAttr a "class" with _ | cv
          · rw [hcv] at ht
            simp [truthy] at ht
          · simp only [hcv] at h
            rcases hmm : (classTokens cv).mapM
                (fun c => get_inline_style styles ("." ++ c)) with _ | ss
            · simp only [hmm] at h
              exact absurd h (by simp)
            · simp only [hmm, Option.some.injEq] at h
              rw [← h] at hm
              simp only [elemsN, List.mem_cons] at hm
              rcases hm with hm | hm
              · rw [hm]
                simp only [Node.attrs]
                rw [getAttr_setAttr_ne _ "style" "class" _ (by decide)]
                rw [getAttr_strip_self]
                rfl
              · exact inlineForest_spans styles kids kids' hf m hm hname
        · rw [if_neg ht] at h
          simp only [Option.some.injEq] at h
          rw [← h] at hm
          simp only [elemsN, List.mem_cons] at hm
          rcases hm with hm | hm
          · rw [hm]
            simp only [Node.attrs]
            simpa using ht
          · exact inlineForest_spans styles kids kids' hf m hm hname
      · rw [if_neg hs] at h
        simp only [Option.some.injEq] at h
        rw [← h] at hm
        simp only [elemsN, List.mem_cons] at hm
        rcases hm with hm | hm
        · exfalso
          rw [hm] at hname
          simp only [Node.name, Option.some.injEq] at hname
          rw [hname] at hs
          simp at hs
        · exact inlineForest_spans styles kids kids' hf m hm hname
termination_by sizeOf c

/-- After the inline-ify rewrite of a forest, no `span` element anywhere in
the result carries a truthy `class` (forest version). -/
theorem inlineForest_spans (styles : Stylesheet) (cs : List Node) :
    ∀ (cs' : List Node), inlineForest styles cs = some cs' →
      ∀ m ∈ elemsF cs', m.name = some "span" →
        truthy (getAttr m.attrs "class") = false := by
  cases cs with
  | nil =>
    intro cs' h m hm hname
    simp only [inlineForest, Option.some.injEq] at h
    rw [← h] at hm
    simp [elemsF] at hm
  | cons c rest =>
    intro cs' h m hm hname
    simp only [inlineForest] at h
    rcases h1 : inlineNode styles c with _ | c2
    · rw [h1] at h
      simp at h
    · rcases h2 : inlineForest styles rest with _ | rest2
      · rw [h1, h2] at h
        simp at h
      · rw [h1, h2] at h
        simp only [Option.some.injEq] at h
        rw [← h] at hm
        simp only [elemsF, List.mem_append] at hm
        rcases hm with hm | hm
        · exact inlineNode_spans styles c c2 h1 m hm hname
        · exact inlineForest_spans styles rest rest2 h2 m hm hname
termination_by sizeOf cs
end

/-- Claim C6 (amended): a `span` carrying at least one CSS class whose
tokens all resolve has, after the inline-ify rewrite, no `class` attribute
and a `style` attribute equal to the `";"`-join of the resolved inline
styles — which may be the empty string when every matched rule has no
declarations; a `span` without a truthy class is returned unchanged; and
after the whole pass no `span` in the result carries a truthy class. -/
theorem c6_inline_spans (styles : Stylesheet) :
    (∀ (n : String) (a : Attrs) (kids : List Node) (cv : AttrValue) (ss : List String),
      getAttr a "class" = some cv → truthy (some cv) = true →
      (classTokens cv).mapM (fun c => get_inline_style styles ("." ++ c)) = some ss →
      replace_tag_with_inline_css styles (.elem n a kids) =
        some (.elem n (setAttr (strip_attr (strip_attr a "style") "class") "style"
          (.str (String.intercalate ";" ss))) kids) ∧
      getAttr (setAttr (strip_attr (strip_attr a "style") "class") "style"
        (.str (String.intercalate ";" ss))) "class" = none ∧
      getAttr (setAttr (strip_attr (strip_attr a "style") "class") "style"
        (.str (String.intercalate ";" ss))) "style" =
          some (.str (String.intercalate ";" ss))) ∧
    (∀ (n : String) (a : Attrs) (kids : List Node),
      truthy (getAttr a "class") = false →
      replace_tag_with_inline_css styles (.elem n a kids) = some (.elem n a kids)) ∧
    (∀ (body body' : Node), change_class_to_inlines body styles = some body' →
      ∀ m ∈ elemsF body'.kids, m.name = some "span" →
        truthy (getAttr m.attrs "class") = false) := by
  refine ⟨?_, ?_, ?_⟩
  · intro n a kids cv ss hcv ht hmm
    refine ⟨?_, ?_, ?_⟩
    · simp only [replace_tag_with_inline_css, hcv, ht, if_true, hmm]
    · rw [getAttr_setAttr_ne _ "style" "class" _ (by decide), getAttr_strip_self]
    · rw [getAttr_setAttr_self]
  · intro n a kids ht
    simp only [replace_tag_with_inline_css, ht, Bool.false_eq_true, reduceIte]
  · intro body body' h m hm hname
    cases body with
    | text s =>
      simp only [change_class_to_inlines, Option.some.injEq] at h
      rw [← h] at hm
      simp [Node.kids, elemsF] at hm
    | elem n a kids =>
      simp only [change_class_to_inlines] at h
      rcases hf : inlineForest styles kids with _ | kids'
      · rw [hf] at h
        simp at h
      · rw [hf] at h
        simp only [Option.some.injEq] at h
        rw [← h] at hm
        simp only [Node.kids] at hm
        exact inlineForest_spans styles kids kids' hf m hm hname

/-- Claim C6, counterexample to the claim as stated: a stylesheet rule with
no declarations (`.c1 {}`) makes the inline-ify pass set `style` to the
*empty* string on a span that carried a class, so the resulting `style`
attribute is not non-empty (it is falsy). -/
theorem c6_counterexample :
    change_class_to_inlines (.elem "body" [] [.elem "span" [("class", .strs ["c1"])] []])
        [⟨".c1", []⟩] =
      some (.elem "body" [] [.elem "span" [("style", .str "")] []]) ∧
    truthy (getAttr [("style", .str "")] "style") = false := by
  constructor
  · decide
  · decide

/-- Claim C6, witness: a span with class `c1` and the stylesheet rule
`.c1 { font-weight: bold }` is rewritten to a span with no class and
`style="font-weight:bold"`. -/
theorem c6_witness :
    replace_tag_with_inline_css [⟨".c1", [⟨"font-weight", ["bold"]⟩]⟩]
        (.elem "span" [("class", .strs ["c1"])] []) =
      some (.elem "span" [("style", .str "font-weight:bold")] []) := by
  have h := (c6_inline_spans [⟨".c1", [⟨"font-weight", ["bold"]⟩]⟩]).1 "span"
      [("class", .strs ["c1"])] [] (.strs ["c1"]) ["font-weight:bold"]
      (by decide) (by decide) (by decide)
  rw [h.1]
  decide

/-! ## Lemmas for claim C8 -/

/-- A forest with no element member counts no non-target elements. -/
theorem countOtherF_of_no_elem (tag : String) :
    ∀ (ks : List Node), hasElemChild ks = false → countOtherF tag ks = 0 := by
  intro ks
  induction ks with
  | nil => intro _; rfl
  | cons c rest ih =>
    intro h
    cases c with
    | text s =>
      simp only [hasElemChild, List.any_cons, Bool.or_eq_false_iff] at h
      simp only [countOtherF, countOtherN]
      have := ih (by simp [hasElemChild, h.2])
      omega
    | elem n a kids =>
      simp only [hasElemChild, List.any_cons] at h
      simp at h

mutual
/-- A node surviving the cleanup sweep contains no empty-shell target
element (node version). -/
theorem cleanupN_no_empty (tag : String) (c : Node) :
    ∀ (c' : Node), cleanupN tag c = some c' →
      ∀ m ∈ elemsN c', m.name = some tag → hasElemChild m.kids = true := by
  cases c with
  | text s =>
    intro c' h m hm hname
    simp only [cleanupN, Option.some.injEq] at h
    rw [← h] at hm
    simp [elemsN] at hm
  | elem n a kids =>
    intro c' h m hm hname
    simp only [cleanupN] at h
    by_cases hcond : (n == tag && !hasElemChild (cleanupF tag kids)) = true
    · rw [if_pos hcond] at h
      simp at h
    · rw [if_neg hcond] at h
      simp only [Option.some.injEq] at h
      rw [← h] at hm
      simp only [elemsN, List.mem_cons] at hm
      rcases hm with hm | hm
      · rw [hm]
        rw [hm] at hname
        simp only [Node.name, Option.some.injEq] at hname
        simp only [Node.kids]
        rcases hx : hasElemChild (cleanupF tag kids) with _ | _
        · exfalso
          apply hcond
          have hbt : (n == tag) = true := by simpa using hname
          rw [hbt, hx]
          rfl
        · rfl
      · exact cleanupF_no_empty tag kids m hm hname
termination_by sizeOf c

/-- A forest swept by the cleanup contains no empty-shell target element
(forest version). -/
theorem cleanupF_no_empty (tag : String) (cs : List Node) :
    ∀ m ∈ elemsF (cleanupF tag cs), m.name = some tag →
      hasElemChild m.kids = true := by
  cases cs with
  | nil =>
    intro m hm
    simp [cleanupF, elemsF] at hm
  | cons c rest =>
    intro m hm hname
    simp only [cleanupF] at hm
    rcases h1 : cleanupN tag c with _ | c2
    · rw [h1] at hm
      exact cleanupF_no_empty tag rest m hm hname
    · rw [h1] at hm
      simp only [elemsF, List.mem_append] at hm
      rcases hm with hm | hm
      · exact cleanupN_no_empty tag c c2 h1 m hm hname
      · exact cleanupF_no_empty tag rest m hm hname
termination_by sizeOf cs
end

mutual
/-- A node kept by the cleanup keeps its count of non-target elements. -/
theorem cleanupN_count_some (tag : String) (c : Node) :
    ∀ (c' : Node), cleanupN tag c = some c' →
      countOtherN tag c' = countOtherN tag c := by
  cases c with
  | text s =>
    intro c' h
    simp only [cleanupN, Option.some.injEq] at h
    rw [← h]
  | elem n a kids =>
    intro c' h
    simp only [cleanupN] at h
    by_cases hcond : (n == tag && !hasElemChild (cleanupF tag kids)) = true
    · rw [if_pos hcond] at h
      simp at h
    · rw [if_neg hcond] at h
      simp only [Option.some.injEq] at h
      rw [← h]
      simp only [countOtherN, cleanupF_count tag kids]
termination_by sizeOf c

/-- A node removed by the cleanup contained no non-target element. -/
theorem cleanupN_count_none (tag : String) (c : Node) :
    cleanupN tag c = none → countOtherN tag c = 0 := by
  cases c with
  | text s =>
    intro h
    simp [cleanupN] at h
  | elem n a kids =>
    intro h
    simp only [cleanupN] at h
    by_cases hcond : (n == tag && !hasElemChild (cleanupF tag kids)) = true
    · simp only [Bool.and_eq_true] at hcond
      have h1 : (n == tag) = true := hcond.1
      have h2 : hasElemChild (cleanupF tag kids) = false := by
        rcases hx : hasElemChild (cleanupF tag kids) with _ | _
        · rfl
        · rw [hx] at hcond
          simp at hcond
      simp only [countOtherN, h1, if_true]
      have h3 : countOtherF tag (cleanupF tag kids) = 0 :=
        countOtherF_of_no_elem tag _ h2
      rw [cleanupF_count tag kids] at h3
      omega
    · rw [if_neg hcond] at h
      simp at h
termination_by sizeOf c

/-- The cleanup sweep preserves every non-target element (count form). -/
theorem cleanupF_count (tag : String) (cs : List Node) :
    countOtherF tag (cleanupF tag cs) = countOtherF tag cs := by
  cases cs with
  | nil => rfl
  | cons c rest =>
    simp only [cleanupF]
    rcases h1 : cleanupN tag c with _ | c2
    · simp only []
      rw [cleanupF_count tag rest]
      have h0 := cleanupN_count_none tag c h1
      simp only [countOtherF]
      omega
    · simp only []
      simp only [countOtherF]
      rw [cleanupN_count_some tag c c2 h1, cleanupF_count tag rest]
termination_by sizeOf cs
end

/-- A forest with no element child has no elements at all: its members are
navigable strings. -/
theorem elemsF_eq_nil_of_no_elem :
    ∀ (ks : List Node), hasElemChild ks = false → elemsF ks = [] := by
  intro ks
  induction ks with
  | nil => intro _; rfl
  | cons c rest ih =>
    intro hk
    cases c with
    | text s =>
      simp only [hasElemChild, List.any_cons, Bool.or_eq_false_iff] at hk
      simp only [elemsF, elemsN, List.nil_append]
      exact ih (by simp [hasElemChild, hk.2])
    | elem n a kids => simp [hasElemChild] at hk

mutual
/-- Retention, node version: a target element anywhere inside the node
whose swept children keep an element child survives the sweep in swept
form — and the node itself is kept. -/
theorem cleanupN_retains (tag : String) (c : Node) :
    ∀ m ∈ elemsN c, Node.name m = some tag →
      hasElemChild (cleanupF tag (Node.kids m)) = true →
      ∃ c', cleanupN tag c = some c' ∧
        Node.withKids m (cleanupF tag (Node.kids m)) ∈ elemsN c' := by
  cases c with
  | text s => intro m hm; simp [elemsN] at hm
  | elem n a kids =>
    intro m hm hname hprot
    simp only [elemsN, List.mem_cons] at hm
    rcases hm with hm | hm
    · subst hm
      simp only [Node.name, Option.some.injEq] at hname
      simp only [Node.kids] at hprot
      refine ⟨.elem n a (cleanupF tag kids), ?_, ?_⟩
      · simp [cleanupN, hprot]
      · simp [Node.withKids, Node.kids, elemsN]
    · have hrec := cleanupF_retains tag kids m hm hname hprot
      by_cases hcond : (n == tag && !hasElemChild (cleanupF tag kids)) = true
      · exfalso
        have h2 : hasElemChild (cleanupF tag kids) = false := by
          rcases hx : hasElemChild (cleanupF tag kids) with _ | _
          · rfl
          · rw [hx] at hcond; simp at hcond
        rw [elemsF_eq_nil_of_no_elem _ h2] at hrec
        simp at hrec
      · refine ⟨.elem n a (cleanupF tag kids), ?_, ?_⟩
        · simp only [cleanupN]
          rw [if_neg hcond]
        · simp only [elemsN, List.mem_cons]
          right
          exact hrec
termination_by sizeOf c

/-- Retention, forest version: a target element anywhere in the forest
whose swept children keep an element child survives the sweep in swept
form. -/
theorem cleanupF_retains (tag : String) (cs : List Node) :
    ∀ m ∈ elemsF cs, Node.name m = some tag →
      hasElemChild (cleanupF tag (Node.kids m)) = true →
      Node.withKids m (cleanupF tag (Node.kids m)) ∈ elemsF (cleanupF tag cs) := by
  cases cs with
  | nil => intro m hm; simp [elemsF] at hm
  | cons c rest =>
    intro m hm hname hprot
    simp only [elemsF, List.mem_append] at hm
    rcases hm with hm | hm
    · obtain ⟨c', hc', hmem⟩ := cleanupN_retains tag c m hm hname hprot
      simp only [cleanupF, hc', elemsF, List.mem_append]
      left
      exact hmem
    · have hrec := cleanupF_retains tag rest m hm hname hprot
      simp only [cleanupF]
      rcases h1 : cleanupN tag c with _ | c2
      · simpa using hrec
      · simp only [elemsF, List.mem_append]
        right
        exact hrec
termination_by sizeOf cs
end

/-- When the scan finds no merge, the loop only reassigns `last_child` and
recurses into `<hr>` children: it flushes its state and emits `hrMapF` of
the remaining children. -/
theorem mergeGo_of_noMerge (tag : String) :
    ∀ (cs done : List Node) (lc : Option Node) (after : List Node),
      noMergeGo tag lc cs = true →
      mergeGo tag cs done lc after = done ++ lc.toList ++ after ++ hrMapF tag cs := by
  intro cs
  induction cs with
  | nil =>
    intro done lc after _
    rw [mergeGo.eq_def]
    simp [hrMapF]
  | cons c rest ih =>
    intro done lc after hnm
    cases c with
    | text s =>
      rw [mergeGo.eq_def]
      simp only []
      have hr : noMergeGo tag (some (.text s)) rest = true := by
        simpa [noMergeGo] using hnm
      rw [ih (done ++ lc.toList ++ after) (some (.text s)) [] hr]
      simp [hrMapF, List.append_assoc]
    | elem n a ks =>
      rw [mergeGo.eq_def]
      simp only []
      rcases hn : n == "hr" with _ | _
      · simp only [hn, Bool.false_eq_true, reduceIte]
        rcases ht : n == tag with _ | _
        · simp only [ht, Bool.false_eq_true, reduceIte]
          have hr : noMergeGo tag (some (.elem n a ks)) rest = true := by
            simp only [noMergeGo, hn, ht, Bool.false_eq_true, reduceIte] at hnm
            exact hnm
          rw [ih (done ++ lc.toList ++ after) (some (.elem n a ks)) [] hr]
          simp [hrMapF, hn, List.append_assoc]
        · simp only [ht, if_true]
          cases lc with
          | none =>
            simp only []
            have hr : noMergeGo tag (some (.elem n a ks)) rest = true := by
              simp only [noMergeGo, hn, ht, Bool.false_eq_true, reduceIte, if_true] at hnm
              simpa using hnm
            rw [ih (done ++ after) (some (.elem n a ks)) [] hr]
            simp [hrMapF, hn, List.append_assoc]
          | some l =>
            cases l with
            | text t =>
              simp only []
              have hr : noMergeGo tag (some (.elem n a ks)) rest = true := by
                simp only [noMergeGo, hn, ht, Bool.false_eq_true, reduceIte, if_true] at hnm
                simpa using hnm
              rw [ih (done ++ .text t :: after) (some (.elem n a ks)) [] hr]
              simp [hrMapF, hn, List.append_assoc]
            | elem m la lk =>
              simp only []
              rcases hmt : m == tag with _ | _
              · simp only [hmt, Bool.false_eq_true, reduceIte]
                have hr : noMergeGo tag (some (.elem n a ks)) rest = true := by
                  simp only [noMergeGo, hn, ht, hmt, Bool.false_eq_true, reduceIte,
                    if_true, Bool.not_false, Bool.true_and] at hnm
                  exact hnm
                rw [ih (done ++ .elem m la lk :: after) (some (.elem n a ks)) [] hr]
                simp [hrMapF, hn, List.append_assoc]
              · exfalso
                simp only [noMergeGo, hn, ht, hmt, Bool.false_eq_true, reduceIte,
                  if_true, Bool.not_true, Bool.false_and] at hnm
      · simp only [hn, if_true]
        have hparts : noMergeN tag (.elem n a ks) = true ∧ noMergeGo tag lc rest = true := by
          simp only [noMergeGo, hn, if_true, Bool.and_eq_true] at hnm
          exact hnm
        rw [ih done lc (after ++ [combine_tags (.elem n a ks) tag]) hparts.2]
        simp [hrMapF, hn, List.append_assoc]

mutual
/-- A merge-free pass preserves every element whose name differs from the
target, node version: the whole recursive pass keeps the non-target
element count of the children. -/
theorem combine_tags_countOther (tag : String) (parent : Node) :
    noMergeN tag parent = true →
    countOtherF tag (combine_tags parent tag).kids = countOtherF tag parent.kids := by
  cases parent with
  | text s => intro _; rfl
  | elem n a kids =>
    intro hnm
    have hnm' : noMergeGo tag none kids = true := by simpa [noMergeN] using hnm
    have hk : (combine_tags (.elem n a kids) tag).kids =
        cleanupF tag (mergeGo tag kids [] none []) := rfl
    rw [hk, mergeGo_of_noMerge tag kids [] none [] hnm']
    simp only [List.nil_append, Option.toList_none]
    rw [cleanupF_count, hrMapF_countOther tag kids none hnm']
    rfl
termination_by sizeOf parent

/-- A merge-free pass preserves every element whose name differs from the
target, forest version: `hrMapF` — recursion into the `<hr>` children —
keeps the non-target element count. -/
theorem hrMapF_countOther (tag : String) (ks : List Node) :
    ∀ (lc : Option Node), noMergeGo tag lc ks = true →
      countOtherF tag (hrMapF tag ks) = countOtherF tag ks := by
  cases ks with
  | nil => intro _ _; rfl
  | cons c rest =>
    intro lc hnm
    cases c with
    | text s =>
      have hr : noMergeGo tag (some (.text s)) rest = true := by
        simpa [noMergeGo] using hnm
      simp only [hrMapF, countOtherF, countOtherN]
      rw [hrMapF_countOther tag rest (some (.text s)) hr]
    | elem n a kids =>
      rcases hn : n == "hr" with _ | _
      · have hr : noMergeGo tag (some (.elem n a kids)) rest = true := by
          simp only [noMergeGo, hn, Bool.false_eq_true, reduceIte] at hnm
          rcases ht : n == tag with _ | _
          · rw [ht] at hnm
            simpa using hnm
          · rw [ht] at hnm
            simp only [if_true, Bool.and_eq_true] at hnm
            exact hnm.2
        simp only [hrMapF, hn, Bool.false_eq_true, reduceIte, countOtherF]
        rw [hrMapF_countOther tag rest (some (.elem n a kids)) hr]
      · have hparts : noMergeN tag (.elem n a kids) = true ∧
            noMergeGo tag lc rest = true := by
          simp only [noMergeGo, hn, if_true, Bool.and_eq_true] at hnm
          exact hnm
        have hc := combine_tags_countOther tag (.elem n a kids) hparts.1
        simp only [hrMapF, hn, if_true, countOtherF]
        rw [hrMapF_countOther tag rest lc hparts.2]
        have hshape : countOtherN tag (combine_tags (.elem n a kids) tag) =
            (if n == tag then 0 else 1) +
              countOtherF tag (combine_tags (.elem n a kids) tag).kids := rfl
        rw [hshape, hc]
        simp only [countOtherN, Node.kids]
termination_by sizeOf ks
end

/-- Claim C8 (amended, under the no-merge hypothesis that keeps the
contents-tree reading of the cleanup faithful — see `cleanupN`): when the
merge loop fires no merge, every mutation of the pass is a chain-preserving
`extract()` and the pass is exactly the recursive bottom-up cleanup sweep
of the loop's output `hrMapF`. The sweep removes an element of the target
tag type exactly when, its own children swept first, it keeps zero
*element* children — `findChildren()` counts descendant Tags only, so
purely textual content does not protect an element and is removed with it:
(1) the pass equals the cleanup sweep of the loop output;
(2) no surviving target-tag element is an empty shell — each keeps an
element child, so nothing non-empty in the `findChildren()` sense was
removed;
(3) retention — every target element of the loop output whose swept
children keep an element child survives into the result in swept form;
(4) elements of every other tag type are never removed: their count over
the whole tree is preserved. -/
theorem c8_cleanup_only_empty (tag : String) (parent : Node)
    (hnm : noMergeN tag parent = true) :
    combine_tags parent tag =
      Node.withKids parent (cleanupF tag (hrMapF tag parent.kids)) ∧
    (∀ m ∈ elemsF (combine_tags parent tag).kids, Node.name m = some tag →
      hasElemChild (Node.kids m) = true) ∧
    (∀ m ∈ elemsF (hrMapF tag parent.kids), Node.name m = some tag →
      hasElemChild (cleanupF tag (Node.kids m)) = true →
      Node.withKids m (cleanupF tag (Node.kids m)) ∈
        elemsF (combine_tags parent tag).kids) ∧
    countOtherF tag (combine_tags parent tag).kids = countOtherF tag parent.kids := by
  have heq : combine_tags parent tag =
      Node.withKids parent (cleanupF tag (hrMapF tag parent.kids)) := by
    cases parent with
    | text s => rfl
    | elem n a kids =>
      have hnm' : noMergeGo tag none kids = true := by simpa [noMergeN] using hnm
      show Node.elem n a (cleanupF tag (mergeGo tag kids [] none [])) = _
      rw [mergeGo_of_noMerge tag kids [] none [] hnm']
      rfl
  refine ⟨heq, ?_, ?_, combine_tags_countOther tag parent hnm⟩
  · intro m hm hname
    rw [heq] at hm
    cases parent with
    | text s => simp [Node.withKids, Node.kids, elemsF] at hm
    | elem n a kids =>
      simp only [Node.withKids, Node.kids] at hm
      exact cleanupF_no_empty tag _ m hm hname
  · intro m hm hname hprot
    rw [heq]
    cases parent with
    | text s => simp [Node.kids, hrMapF, elemsF] at hm
    | elem n a kids =>
      simp only [Node.withKids, Node.kids]
      exact cleanupF_retains tag _ m hm hname hprot

/-- Claim C8, witness: the merge-free body `<body><h6><p/></h6></body>`
discharges the no-merge hypothesis, and the surviving `<h6>` element of
the pass's output indeed kept its element child. -/
theorem c8_witness :
    hasElemChild (Node.kids (.elem "h6" [] [.elem "p" [] []])) = true :=
  (c8_cleanup_only_empty "h6" (.elem "body" [] [.elem "h6" [] [.elem "p" [] []]])
    (by decide)).2.1 (.elem "h6" [] [.elem "p" [] []]) (by decide) (by decide)

end GDoc
